import Mathlib

/-!
Verification development for `fix_mhtml_imge.py`, a script that repairs
broken inline-image references in an MHTML archive.  The script works on
raw bytes with Python regular expressions; here bytes are modelled as
`List Char` (each char standing for one byte) and every regex the script
uses is embedded as a hand-rolled matcher with Python's leftmost /
greedy-with-backtracking semantics.  `bytes.decode('utf-8','ignore')` is
modelled as the identity on this byte alphabet.
-/

namespace MhtmlFix

abbrev Str := List Char

/-- Double-quote character, written via its code point. -/
def qDbl : Char := Char.ofNat 34

/-- Single-quote character, written via its code point. -/
def qSgl : Char := Char.ofNat 39

/-- ASCII lower-casing of a single character (Python `bytes.lower` acts per byte). -/
def lcCh (c : Char) : Char :=
  if 'A' ≤ c ∧ c ≤ 'Z' then Char.ofNat (c.toNat + 32) else c

/-- Case-insensitive character comparison (re.IGNORECASE on ASCII). -/
def ciEq (a b : Char) : Bool := lcCh a = lcCh b

/-- `litPref lit s`: `lit` is a literal prefix of `s`. -/
def litPref : Str → Str → Bool
  | [], _ => true
  | _ :: _, [] => false
  | l :: ls, c :: cs => l = c && litPref ls cs

/-- `ciStarts lit s`: `lit` is a case-insensitive prefix of `s`. -/
def ciStarts : Str → Str → Bool
  | [], _ => true
  | _ :: _, [] => false
  | l :: ls, c :: cs => ciEq l c && ciStarts ls cs

/-- `hasInfix s lit`: the literal `lit` occurs somewhere in `s`
(Python's `lit in s` on bytes). -/
def hasInfix : Str → Str → Bool
  | [], lit => lit.isEmpty
  | c :: cs, lit => litPref lit (c :: cs) || hasInfix cs lit

/-- Case-insensitive occurrence test. -/
def hasInfixCI : Str → Str → Bool
  | [], lit => lit.isEmpty
  | c :: cs, lit => ciStarts lit (c :: cs) || hasInfixCI cs lit

/-- ASCII lower-casing of a byte string. -/
def lowerStr (s : Str) : Str := s.map lcCh

/-- The byte set Python's `bytes.strip()` removes. -/
def pyWs (c : Char) : Bool :=
  c = ' ' || c = '\t' || c = '\n' || c = '\r' || c = Char.ofNat 11 || c = Char.ofNat 12

/-- Python `bytes.strip()`. -/
def stripB (s : Str) : Str := ((s.dropWhile pyWs).reverse.dropWhile pyWs).reverse

/-- `os.path.basename` (posix): everything after the last `'/'`. -/
def basename (s : Str) : Str := (s.reverse.takeWhile (fun c => !(c = '/'))).reverse

/-- The character class `[a-zA-Z0-9._-]` that is legal inside a Content-ID. -/
def legalCh (c : Char) : Bool :=
  ('a' ≤ c && c ≤ 'z') || ('A' ≤ c && c ≤ 'Z') || ('0' ≤ c && c ≤ '9') ||
  c = '.' || c = '_' || c = '-'

/-- `re.sub(r'[^a-zA-Z0-9._-]', '_', filename)`. -/
def sanitize (s : Str) : Str := s.map (fun c => if legalCh c then c else '_')

/-- Leftmost-match search: `scanFirst m s = some (pre, mt, a, rest)` means the
matcher `m` first succeeds after the prefix `pre`, matching the text `mt`
with capture `a`, with `rest` following (`re.search` semantics). -/
def scanFirst {α : Type} (m : Str → Option (Nat × α)) : Str → Option (Str × Str × α × Str)
  | [] => none
  | c :: cs =>
    match m (c :: cs) with
    | some (len, a) => some ([], List.take len (c :: cs), a, List.drop len (c :: cs))
    | none =>
      match scanFirst m cs with
      | some (pre, mt, a, rest) => some (c :: pre, mt, a, rest)
      | none => none

/-- `re.sub(pattern, repl, s, count=1)`: replace the leftmost match, where the
replacement may depend on the matched text and the captures. -/
def subOnce {α : Type} (m : Str → Option (Nat × α)) (repl : Str → α → Str) : Str → Str
  | [] => []
  | c :: cs =>
    match m (c :: cs) with
    | some (len, a) => repl (List.take len (c :: cs)) a ++ List.drop len (c :: cs)
    | none => c :: subOnce m repl cs

/- ----------------------------------------------------------------
   The concrete regex matchers used by the script.
   ---------------------------------------------------------------- -/

/-- Matcher for `<img[^>]+>` (IGNORECASE) at the head of the input. -/
def matchImgAt (s : Str) : Option (Nat × Unit) :=
  match s with
  | c0 :: c1 :: c2 :: c3 :: rest =>
    if c0 = '<' && ciEq c1 'i' && ciEq c2 'm' && ciEq c3 'g' then
      if (rest.takeWhile (fun c => !(c = '>'))).length = 0 then none
      else
        match rest.drop (rest.takeWhile (fun c => !(c = '>'))).length with
        | d :: _ =>
          if d = '>' then some (5 + (rest.takeWhile (fun c => !(c = '>'))).length, ())
          else none
        | [] => none
    else none
  | _ => none

/-- Helper: `<` then a nonempty `[^>]+` run then `>`; capture the run. -/
def angleVal : Str → Option (Nat × Str)
  | c :: t =>
    if c = '<' then
      if (t.takeWhile (fun x => !(x = '>'))).length = 0 then none
      else
        match t.drop (t.takeWhile (fun x => !(x = '>'))).length with
        | d :: _ =>
          if d = '>' then
            some ((t.takeWhile (fun x => !(x = '>'))).length + 2,
              t.takeWhile (fun x => !(x = '>')))
          else none
        | [] => none
    else none
  | [] => none

/-- Matcher for `Content-ID: ?<([^>]+)>` (IGNORECASE) at the head of the input. -/
def matchCidAt (s : Str) : Option (Nat × Str) :=
  if ciStarts "content-id:".data s then
    match s.drop 11 with
    | c :: t =>
      if c = ' ' then (angleVal t).map (fun la => (12 + la.1, la.2))
      else (angleVal (c :: t)).map (fun la => (11 + la.1, la.2))
    | [] => none
  else none

/-- Helper: a nonempty `[^\r\n]+` run; capture it. -/
def lineVal (t : Str) : Option (Nat × Str) :=
  let run := t.takeWhile (fun c => !(c = '\r' || c = '\n'))
  if run.length = 0 then none else some (run.length, run)

/-- Helper for `: ?([^\r\n]+)` after the header-name colon: Python first tries to
consume one space, and on failure backtracks to capturing from the space itself. -/
def optSpLineVal : Str → Option (Nat × Str)
  | ' ' :: t2 =>
    match lineVal t2 with
    | some la => some (1 + la.1, la.2)
    | none => lineVal (' ' :: t2)
  | t => lineVal t

/-- Matcher for `Content-Location: ?([^\r\n]+)` (IGNORECASE) at the head. -/
def matchLocAt (s : Str) : Option (Nat × Str) :=
  if ciStarts "content-location:".data s then
    (optSpLineVal (s.drop 17)).map (fun la => (17 + la.1, la.2))
  else none

/-- Matcher for `Content-Transfer-Encoding: ?([^\r\n]+)` (IGNORECASE) at the head. -/
def matchEncAt (s : Str) : Option (Nat × Str) :=
  if ciStarts "content-transfer-encoding:".data s then
    (optSpLineVal (s.drop 26)).map (fun la => (26 + la.1, la.2))
  else none

/-- Matcher for `boundary="([^"]+)"` (IGNORECASE) at the head. -/
def matchBoundaryAt (s : Str) : Option (Nat × Str) :=
  if ciStarts ("boundary=".data ++ [qDbl]) s then
    let t := s.drop 10
    let run := t.takeWhile (fun c => !(c = qDbl))
    if run.length = 0 then none
    else
      match t.drop run.length with
      | c :: _ => if c = qDbl then some (11 + run.length, run) else none
      | [] => none
  else none

/-- Matcher for the header/body separator `\r?\n\r?\n` at the head
(greedy `\r?`, so longer variants are preferred). -/
def matchBlankAt (s : Str) : Option (Nat × Unit) :=
  match s with
  | '\r' :: '\n' :: '\r' :: '\n' :: _ => some (4, ())
  | '\r' :: '\n' :: '\n' :: _ => some (3, ())
  | '\n' :: '\r' :: '\n' :: _ => some (3, ())
  | '\n' :: '\n' :: _ => some (2, ())
  | _ => none

/-- The value class `[^"\' >]` of the `src` pattern. -/
def srcClassB (c : Char) : Bool := !(c = qDbl || c = qSgl || c = ' ' || c = '>')

/-- Python regex `\s` on bytes. -/
def isWsB (c : Char) : Bool :=
  c = ' ' || c = '\t' || c = '\n' || c = '\r' || c = Char.ofNat 11 || c = Char.ofNat 12

/-- The part `(["\']?)([^"\' >]+)\1` of the `src` pattern: an optional quote
(greedily preferred), a nonempty value run, and the matching back-reference. -/
def srcValPart (t : Str) : Option (Nat × Str) :=
  match t with
  | [] => none
  | q :: t2 =>
    if q = qDbl || q = qSgl then
      let run := t2.takeWhile srcClassB
      if run.length = 0 then none
      else
        match t2.drop run.length with
        | c :: _ => if c = q then some (run.length + 2, run) else none
        | [] => none
    else
      let run := (q :: t2).takeWhile srcClassB
      if run.length = 0 then none else some (run.length, run)

/-- Backtracking over the second `\s*` of the `src` pattern: greedy, so larger
whitespace counts are tried first. -/
def srcScanJ (afterEq : Str) : Nat → Option (Nat × Str)
  | 0 => srcValPart afterEq
  | j + 1 =>
    match srcValPart (afterEq.drop (j + 1)) with
    | some la => some (j + 1 + la.1, la.2)
    | none => srcScanJ afterEq j

/-- Matcher for `src\s*=\s*(["\']?)([^"\' >]+)\1` (IGNORECASE) at the head;
the capture is the attribute value (group 2). -/
def matchSrcAt (s : Str) : Option (Nat × Str) :=
  match s with
  | c1 :: c2 :: c3 :: rest =>
    if ciEq c1 's' && ciEq c2 'r' && ciEq c3 'c' then
      let w1 := (rest.takeWhile isWsB).length
      match rest.drop w1 with
      | '=' :: afterEq =>
        let w2 := (afterEq.takeWhile isWsB).length
        (srcScanJ afterEq w2).map (fun la => (4 + w1 + la.1, la.2))
      | _ => none
    else none
  | _ => none

/- ----------------------------------------------------------------
   bytes.split, global re.sub over img tags.
   ---------------------------------------------------------------- -/

/-- The head matcher for a literal separator occurrence. -/
def sepM (sep : Str) (t : Str) : Option (Nat × Unit) :=
  if litPref sep t then some (sep.length, ()) else none

/-- Fuelled worker for `bytes.split(sep)`. -/
def splitOnSubF (sep : Str) : Nat → Str → List Str
  | 0, s => [s]
  | fuel + 1, s =>
    match scanFirst (sepM sep) s with
    | none => [s]
    | some (pre, _, _, rest) => pre :: splitOnSubF sep fuel rest

/-- Python `content.split(sep)` for a nonempty separator. -/
def splitOnSub (s sep : Str) : List Str := splitOnSubF sep s.length s

/-- Fuelled worker for the global `re.sub(br'<img[^>]+>', f, body)`. -/
def subImgF (f : Str → Str) : Nat → Str → Str
  | 0, s => s
  | fuel + 1, s =>
    match scanFirst matchImgAt s with
    | none => s
    | some (pre, mt, _, rest) => pre ++ f mt ++ subImgF f fuel rest

/-- Global substitution over every `<img[^>]+>` match, Python `re.sub` semantics. -/
def subImg (f : Str → Str) (s : Str) : Str := subImgF f s.length s

/-- Fuelled worker listing every `Content-ID: ?<...>` capture, `re.findall` semantics. -/
def scanCidVals : Nat → Str → List Str
  | 0, _ => []
  | _ + 1, [] => []
  | fuel + 1, c :: cs =>
    match matchCidAt (c :: cs) with
    | some (len, v) => v :: scanCidVals fuel (List.drop len (c :: cs))
    | none => scanCidVals fuel cs

/-- The list of identifier-header values present in a part (the values of all
non-overlapping matches of the script's Content-ID pattern). -/
def cidVals (s : Str) : List Str := scanCidVals s.length s

/- ----------------------------------------------------------------
   quoted-printable (binascii.b2a_qp quotetabs=False istext=True header=False,
   and binascii.a2b_qp header=False), modelled byte for byte.
   ---------------------------------------------------------------- -/

/-- Upper-case hex digit. -/
def hexDig (n : Nat) : Char := "0123456789ABCDEF".data.getD n '0'

/-- `=XX` quoting of one byte. -/
def qhex (c : Char) : Str := ['=', hexDig (c.toNat / 16), hexDig (c.toNat % 16)]

/-- A soft line break: `=\r\n` for CRLF input, `=\n` otherwise. -/
def softBrk (crlf : Bool) : Str := if crlf then ['=', '\r', '\n'] else ['=', '\n']

/-- The emitted line terminator. -/
def nlTok (crlf : Bool) : Str := if crlf then ['\r', '\n'] else ['\n']

/-- b2a_qp's CRLF detection: whether the first `\n` of the data is preceded by `\r`. -/
def detectCrlf : Str → Bool
  | [] => false
  | [c] => c = '\x00' && false
  | c1 :: c2 :: cs =>
    if c1 = '\n' then false
    else if c2 = '\n' then c1 = '\r'
    else detectCrlf (c2 :: cs)

/-- b2a_qp's per-byte quoting decision (`ll` is the current output line length,
`nxt` the following input byte if any). -/
def quotable (c : Char) (ll : Nat) (nxt : Option Char) : Bool :=
  (126 < c.toNat) || (c = '=') ||
  (c = '.' && ll = 0 &&
    (nxt = none || nxt = some '\n' || nxt = some '\r' || nxt = some (Char.ofNat 0))) ||
  ((c = '\t' || c = ' ') && nxt = none) ||
  (c.toNat < 33 && !(c = '\r') && !(c = '\n') && !(c = '\t') && !(c = ' '))

/-- The body of `binascii.b2a_qp` (quotetabs=False, istext=True, header=False).
The C code re-quotes a space or tab sitting immediately before a line break by
rewriting the output buffer; that is modelled here by one byte of lookahead. -/
def encQPGo (crlf : Bool) : Nat → Nat → Str → Str
  | 0, _, _ => []
  | _ + 1, _, [] => []
  | fuel + 1, ll, c :: cs =>
    if quotable c ll cs.head? then
      if 76 ≤ ll + 3 then softBrk crlf ++ qhex c ++ encQPGo crlf fuel 3 cs
      else qhex c ++ encQPGo crlf fuel (ll + 3) cs
    else if c = '\n' then nlTok crlf ++ encQPGo crlf fuel 0 cs
    else if cs.head? = some '\n' then
      if c = '\r' then nlTok crlf ++ encQPGo crlf fuel 0 (cs.drop 1)
      else if c = ' ' || c = '\t' then
        qhex c ++ nlTok crlf ++ encQPGo crlf fuel 0 (cs.drop 1)
      else c :: encQPGo crlf fuel (ll + 1) cs
    else if cs.head? = some '\r' && (cs.drop 1).head? = some '\n' then
      if c = ' ' || c = '\t' then
        (if 76 ≤ ll + 1 then softBrk crlf else []) ++
          qhex c ++ nlTok crlf ++ encQPGo crlf fuel 0 (cs.drop 2)
      else if 76 ≤ ll + 1 then softBrk crlf ++ c :: encQPGo crlf fuel 1 cs
      else c :: encQPGo crlf fuel (ll + 1) cs
    else
      if !(cs = []) && 76 ≤ ll + 1 then softBrk crlf ++ c :: encQPGo crlf fuel 1 cs
      else c :: encQPGo crlf fuel (ll + 1) cs

def encQP (s : Str) : Str := encQPGo (detectCrlf s) s.length 0 s

/-- Hex-digit test of `a2b_qp`. -/
def isHexDigB (c : Char) : Bool :=
  ('0' ≤ c && c ≤ '9') || ('a' ≤ c && c ≤ 'f') || ('A' ≤ c && c ≤ 'F')

/-- Value of a hex digit. -/
def hexVal (c : Char) : Nat :=
  if c ≤ '9' then c.toNat - 48 else if 'a' ≤ c then c.toNat - 87 else c.toNat - 55

/-- The body of `binascii.a2b_qp` (header=False).  The Boolean mode is `true`
while skipping the remainder of a `=\r...`-style soft line break. -/
def decQPGo : Bool → Str → Str
  | _, [] => []
  | true, '\n' :: r => decQPGo false r
  | true, _ :: r => decQPGo true r
  | false, '=' :: rest =>
    match rest with
    | [] => []
    | '\n' :: r => decQPGo false r
    | '\r' :: r => decQPGo true r
    | '=' :: r => '=' :: decQPGo false r
    | a :: b :: r =>
      if isHexDigB a && isHexDigB b then
        Char.ofNat (16 * hexVal a + hexVal b) :: decQPGo false r
      else '=' :: decQPGo false (a :: b :: r)
    | [a] => '=' :: decQPGo false [a]
  | false, c :: rest => c :: decQPGo false rest

/-- `quopri.decodestring` as the script calls it. -/
def decQP (s : Str) : Str := decQPGo false s

/- ----------------------------------------------------------------
   The pipeline.
   ---------------------------------------------------------------- -/

/-- Part classification, exactly as the script's chained `if`s decide it. -/
inductive Kind
  | image
  | markup
  | other
deriving DecidableEq, Repr

/-- The literal the image branch tests for. -/
def ctImage : Str := "Content-Type: image".data

/-- The literal the markup branch tests for. -/
def ctHtml : Str := "Content-Type: text/html".data

/-- `if b'Content-Type: image' in part: ... elif b'Content-Type: text/html' in part`. -/
def classify (p : Str) : Kind :=
  if hasInfix p ctImage then .image
  else if hasInfix p ctHtml then .markup
  else .other

/-- `f"{sanitized_filename}.{uuid.uuid4().hex[:8]}@mhtml.fixer"` with the random
hex fragment supplied from outside. -/
def mkCid (hex : Str) (loc : Str) : Str :=
  (if (sanitize (basename loc)).head? = some '-' then
    "image".data ++ sanitize (basename loc)
  else sanitize (basename loc)) ++ '.' :: (hex ++ '@' :: "mhtml.fixer".data)

/-- The replacement header text `Content-ID: <cid>`. -/
def cidHdrTxt (cid : Str) : Str := "Content-ID: <".data ++ cid ++ ['>']

/-- In-place header rewrite of an image part whose (stripped) location is `loc`:
replace the first Content-ID header, or insert one after the Content-Location line. -/
def rewriteImagePart (hex : Str) (loc : Str) (part : Str) : Str :=
  match scanFirst matchCidAt part with
  | some _ => subOnce matchCidAt (fun _ _ => cidHdrTxt (mkCid hex loc)) part
  | none =>
    subOnce matchLocAt (fun mt _ => mt ++ '\r' :: '\n' :: cidHdrTxt (mkCid hex loc)) part

/-- Insertion-ordered dict write (`d[k] = v`): an existing key keeps its position. -/
def dictInsert (m : List (Str × Str)) (k v : Str) : List (Str × Str) :=
  if m.any (fun p => p.1 = k) then m.map (fun p => if p.1 = k then (k, v) else p)
  else m ++ [(k, v)]

/-- `d.get(k)`. -/
def dictGet (m : List (Str × Str)) (k : Str) : Option Str :=
  (m.find? (fun p => p.1 = k)).map (fun p => p.2)

/-- State threaded through pass 1 (`ref_map`, `html_part_info`,
`modified_content_parts`, and the number of uuid draws so far). -/
structure P1 where
  refMap : List (Str × Str)
  htmlInfo : Option (Nat × Str × Str)
  acc : List Str
  k : Nat
deriving Repr

/-- Initial pass-1 state. -/
def initP1 : P1 := ⟨[], none, [], 0⟩

/-- The declared transfer encoding of an html part (default `7bit`). -/
def encOf (part : Str) : Str :=
  match scanFirst matchEncAt part with
  | some r => lowerStr (stripB r.2.2.1)
  | none => "7bit".data

/-- One iteration of the pass-1 loop body. -/
def step (hexes : Nat → Str) (st : P1) (part : Str) : P1 :=
  match classify part with
  | .image =>
    match scanFirst matchLocAt part with
    | none => { st with acc := st.acc ++ [part] }
    | some r =>
      let loc := stripB r.2.2.1
      let cid := mkCid (hexes st.k) loc
      let rm1 := dictInsert st.refMap loc cid
      let rm2 :=
        match scanFirst matchCidAt part with
        | some r2 => dictInsert rm1 (stripB r2.2.2.1) cid
        | none => rm1
      { refMap := rm2, htmlInfo := st.htmlInfo,
        acc := st.acc ++ [rewriteImagePart (hexes st.k) loc part], k := st.k + 1 }
  | .markup =>
    { st with htmlInfo := some (st.acc.length, encOf part, part),
              acc := st.acc ++ [part] }
  | .other => { st with acc := st.acc ++ [part] }

/-- `src="cid:<cid>"`, the replacement attribute (always double-quoted). -/
def srcAttrTxt (cid : Str) : Str :=
  "src=".data ++ qDbl :: ("cid:".data ++ cid ++ [qDbl])

/-- `if endswith '/>' keep; elif endswith '>' convert; else return unchanged`
(the src-absent branch of `fix_img_tag`). -/
def selfCloseKeep (t : Str) : Str :=
  if litPref ['>', '/'] t.reverse then t
  else if litPref ['>'] t.reverse then t.dropLast ++ '/' :: ['>']
  else t

/-- Same, but the final fallback appends `/>` (the tail of `fix_img_tag`). -/
def selfCloseApp (t : Str) : Str :=
  if litPref ['>', '/'] t.reverse then t
  else if litPref ['>'] t.reverse then t.dropLast ++ '/' :: ['>']
  else t ++ '/' :: ['>']

/-- The resolution of a `src` value through the reference map: direct lookup,
then Python-falsy test, then first-match-by-basename fallback. -/
def resolveRef (rm : List (Str × Str)) (key : Str) : Option Str :=
  let n0 := dictGet rm key
  let falsy : Bool := match n0 with | none => true | some c => c.isEmpty
  if falsy then
    match rm.find? (fun p => basename p.1 = basename key) with
    | some p => some p.2
    | none => n0
  else n0

/-- The `fix_img_tag` callback applied to one matched `<img ...>` tag. -/
def fixImgTag (rm : List (Str × Str)) (tag : Str) : Str :=
  match scanFirst matchSrcAt tag with
  | none => selfCloseKeep tag
  | some r =>
    let v := r.2.2.1
    let key := if lowerStr (v.take 4) = "cid:".data then v.drop 4 else v
    match resolveRef rm key with
    | some cid =>
      if cid.isEmpty then selfCloseApp tag
      else selfCloseApp (subOnce matchSrcAt (fun _ _ => srcAttrTxt cid) tag)
    | none => selfCloseApp tag

/-- Error outcomes of a run. -/
inductive Err
  | fileNotFound
  | readFailed
  | missingBoundary
  | missingMarkup
  | headerCrash
deriving DecidableEq, Repr

instance instDecEqExceptErr : DecidableEq (Except Err Str) := fun x y =>
  match x, y with
  | .ok a, .ok b =>
    if h : a = b then isTrue (by rw [h]) else isFalse (by simp [h])
  | .error a, .error b =>
    if h : a = b then isTrue (by rw [h]) else isFalse (by simp [h])
  | .ok _, .error _ => isFalse (by simp)
  | .error _, .ok _ => isFalse (by simp)

/-- `parts[1:-1]`. -/
def middleParts (parts : List Str) : List Str := (parts.drop 1).dropLast

/-- Reassembly: global header, then each part preceded by the boundary (and a
CRLF when the part does not already start with one), then the terminal boundary. -/
def assemble (boundary : Str) (headerPart : Str) (ps : List Str) : Str :=
  headerPart ++
    (ps.map (fun p =>
      boundary ++ (if litPref ('\r' :: ['\n']) p then [] else '\r' :: ['\n']) ++ p)).flatten ++
    boundary ++ '-' :: '-' :: '\r' :: ['\n']

/-- The whole in-memory transform of `fix_mhtml_image_references`, from the raw
input bytes to the output bytes (or the error that aborts the run).  `hexes`
supplies the successive `uuid4().hex[:8]` draws. -/
def core (hexes : Nat → Str) (content : Str) : Except Err Str :=
  match scanFirst matchBoundaryAt content with
  | none => .error .missingBoundary
  | some br =>
    let boundary := '-' :: '-' :: br.2.2.1
    let parts := splitOnSub content boundary
    let headerPart := parts.headD []
    let st := (middleParts parts).foldl (step hexes) initP1
    match st.htmlInfo with
    | none => .error .missingMarkup
    | some info =>
      match scanFirst matchBlankAt info.2.2 with
      | none => .error .headerCrash
      | some hb =>
        let headers := hb.1 ++ hb.2.1
        let qp := info.2.1 = "quoted-printable".data
        let bodyDec := if qp then decQP hb.2.2.2 else hb.2.2.2
        let bodyMod := subImg (fixImgTag st.refMap) bodyDec
        let bodyFin := if qp then encQP bodyMod else bodyMod
        .ok (assemble boundary headerPart (st.acc.set info.1 (headers ++ bodyFin)))

/-- File-system events of a run. -/
inductive Ev
  | readInput
  | openOutput
deriving DecidableEq, Repr

/-- The run including its interaction with the file system: existence check,
read (which may fail), the in-memory transform, and — only on success — the
opening and writing of the output file. -/
def runFixTr (fileOk : Bool) (readRes : Option Str) (hexes : Nat → Str) :
    List Ev × Except Err Str :=
  if !fileOk then ([], .error .fileNotFound)
  else
    match readRes with
    | none => ([.readInput], .error .readFailed)
    | some content =>
      match core hexes content with
      | .error e => ([.readInput], .error e)
      | .ok out => ([.readInput, .openOutput], .ok out)

/-- The index of the last markup-classified part, defined independently of the
pass-1 fold. -/
def lastMarkupIdx : List Str → Option Nat
  | [] => none
  | p :: ps =>
    match lastMarkupIdx ps with
    | some i => some (i + 1)
    | none => if classify p = .markup then some 0 else none

/-- The header block of a part, as the script would split it off. -/
def headerBlockOf (p : Str) : Option Str :=
  (scanFirst matchBlankAt p).map (fun r => r.1 ++ r.2.1)

/-- The case-folded header-name literal of the Content-ID pattern. -/
def cidLit : Str := "content-id:".data

/-- The bare header name, used to state "no identifier header occurs". -/
def cidLit10 : Str := "content-id".data

/-- A delimiter with no proper self-overlap: no nonempty proper suffix of `b`
is also a prefix of `b`. -/
def overlapFree (b : Str) : Prop :=
  ∀ j, j < b.length → (0 < j → ¬ b.drop j = b.take (b.length - j))

instance (b : Str) : Decidable (overlapFree b) := by
  unfold overlapFree
  infer_instance

/-- The list of `<img[^>]+>` matches the scan finds, in order (fuelled). -/
def imgMatchesF : Nat → Str → List Str
  | 0, _ => []
  | fuel + 1, s =>
    match scanFirst matchImgAt s with
    | none => []
    | some (_, mt, _, rest) => mt :: imgMatchesF fuel rest

/-- Every substring of `s` the scan matches as an `<img[^>]+>` tag
(`re.finditer` semantics). -/
def imgMatches (s : Str) : List Str := imgMatchesF s.length s

/-- Uniform CRLF line endings: every `\r` is immediately followed by `\n` and
every `\n` is immediately preceded by `\r`. -/
def crlfOnly : Str → Bool
  | [] => true
  | c :: cs =>
    if c = '\r' then
      match cs with
      | c2 :: cs2 => if c2 = '\n' then crlfOnly cs2 else false
      | [] => false
    else if c = '\n' then false
    else crlfOnly cs

/- ----------------------------------------------------------------
   Basic lemmas about the scanning primitives.
   ---------------------------------------------------------------- -/

theorem litPref_iff {lit s : Str} : litPref lit s = true ↔ ∃ t, s = lit ++ t := by
  induction lit generalizing s with
  | nil => simp [litPref]
  | cons l ls ih =>
    cases s with
    | nil => simp [litPref]
    | cons c cs =>
      simp only [litPref, Bool.and_eq_true, decide_eq_true_eq, ih, List.cons_append,
        List.cons.injEq]
      constructor
      · rintro ⟨rfl, t, rfl⟩; exact ⟨t, rfl, rfl⟩
      · rintro ⟨t, rfl, rfl⟩; exact ⟨rfl, t, rfl⟩

theorem hasInfix_iff {s lit : Str} : hasInfix s lit = true ↔ ∃ u v, s = u ++ lit ++ v := by
  induction s with
  | nil =>
    simp only [hasInfix, List.isEmpty_iff]
    constructor
    · rintro rfl; exact ⟨[], [], rfl⟩
    · rintro ⟨u, v, h⟩
      rcases List.append_eq_nil.mp h.symm with ⟨h1, h2⟩
      exact (List.append_eq_nil.mp h1).2
  | cons c cs ih =>
    simp only [hasInfix, Bool.or_eq_true, litPref_iff, ih]
    constructor
    · rintro (⟨t, ht⟩ | ⟨u, v, huv⟩)
      · exact ⟨[], t, by simp [ht]⟩
      · exact ⟨c :: u, v, by simp [huv]⟩
    · rintro ⟨u, v, huv⟩
      cases u with
      | nil => exact Or.inl ⟨v, by simpa using huv⟩
      | cons x xs =>
        simp only [List.cons_append, List.cons.injEq] at huv
        exact Or.inr ⟨xs, v, huv.2⟩

theorem scanFirst_cons_of_matchAt {α : Type} {m : Str → Option (Nat × α)} {c : Char}
    {cs : Str} {len : Nat} {a : α} (hm : m (c :: cs) = some (len, a)) :
    scanFirst m (c :: cs) =
      some ([], List.take len (c :: cs), a, List.drop len (c :: cs)) := by
  rw [scanFirst, hm]

theorem scanFirst_cons_of_noMatchAt {α : Type} {m : Str → Option (Nat × α)} {c : Char}
    {cs : Str} (hm : m (c :: cs) = none) :
    scanFirst m (c :: cs) =
      match scanFirst m cs with
      | some (pre, mt, a, rest) => some (c :: pre, mt, a, rest)
      | none => none := by
  rw [scanFirst, hm]

/-- A successful leftmost search decomposes the input. -/
theorem scanFirst_decomp {α : Type} {m : Str → Option (Nat × α)} {s pre mt : Str}
    {a : α} {rest : Str} (h : scanFirst m s = some (pre, mt, a, rest)) :
    s = pre ++ mt ++ rest := by
  induction s generalizing pre mt a rest with
  | nil => simp [scanFirst] at h
  | cons c cs ih =>
    cases hm : m (c :: cs) with
    | some la =>
      obtain ⟨len, a0⟩ := la
      rw [scanFirst_cons_of_matchAt hm] at h
      simp only [Option.some.injEq, Prod.mk.injEq] at h
      obtain ⟨h1, h2, h3, h4⟩ := h
      subst h1
      rw [← h2, ← h4]
      simp
    | none =>
      rw [scanFirst_cons_of_noMatchAt hm] at h
      cases hs : scanFirst m cs with
      | some r =>
        obtain ⟨p2, m2, a2, r2⟩ := r
        rw [hs] at h
        simp only [Option.some.injEq, Prod.mk.injEq] at h
        obtain ⟨h1, h2, h3, h4⟩ := h
        subst h1
        rw [h2, h3, h4] at hs
        have hd := ih hs
        simp [hd]
      | none => rw [hs] at h; cases h

/-- The matcher succeeds at the reported position, matching exactly `mt`
(for a matcher that never claims more input than it has). -/
theorem scanFirst_hit {α : Type} {m : Str → Option (Nat × α)}
    (hle : ∀ t len a, m t = some (len, a) → len ≤ t.length)
    {s pre mt : Str} {a : α} {rest : Str}
    (h : scanFirst m s = some (pre, mt, a, rest)) :
    m (mt ++ rest) = some (mt.length, a) := by
  induction s generalizing pre mt a rest with
  | nil => simp [scanFirst] at h
  | cons c cs ih =>
    cases hm : m (c :: cs) with
    | some la =>
      obtain ⟨len, a0⟩ := la
      rw [scanFirst_cons_of_matchAt hm] at h
      simp only [Option.some.injEq, Prod.mk.injEq] at h
      obtain ⟨h1, h2, h3, h4⟩ := h
      subst h1; subst h2; subst h3; subst h4
      rw [List.take_append_drop, hm, List.length_take]
      have := hle _ _ _ hm
      congr 2
      omega
    | none =>
      rw [scanFirst_cons_of_noMatchAt hm] at h
      cases hs : scanFirst m cs with
      | some r =>
        obtain ⟨p2, m2, a2, r2⟩ := r
        rw [hs] at h
        simp only [Option.some.injEq, Prod.mk.injEq] at h
        obtain ⟨h1, h2, h3, h4⟩ := h
        subst h1
        rw [h2, h3, h4] at hs
        exact ih hs
      | none => rw [hs] at h; cases h

/-- Everything strictly before the reported position fails to match. -/
theorem scanFirst_leftmost {α : Type} {m : Str → Option (Nat × α)} {s pre mt : Str}
    {a : α} {rest : Str} (h : scanFirst m s = some (pre, mt, a, rest)) :
    ∀ u v, pre ++ mt ++ rest = u ++ v → u.length < pre.length → m v = none := by
  induction s generalizing pre mt a rest with
  | nil => simp [scanFirst] at h
  | cons c cs ih =>
    cases hm : m (c :: cs) with
    | some la =>
      obtain ⟨len, a0⟩ := la
      rw [scanFirst_cons_of_matchAt hm] at h
      simp only [Option.some.injEq, Prod.mk.injEq] at h
      obtain ⟨h1, h2, h3, h4⟩ := h
      subst h1
      intro u v _ hu
      simp at hu
    | none =>
      rw [scanFirst_cons_of_noMatchAt hm] at h
      cases hs : scanFirst m cs with
      | some r =>
        obtain ⟨p2, m2, a2, r2⟩ := r
        rw [hs] at h
        simp only [Option.some.injEq, Prod.mk.injEq] at h
        obtain ⟨h1, h2, h3, h4⟩ := h
        subst h1
        rw [h2, h3, h4] at hs
        intro u v huv hu
        have hd : cs = p2 ++ mt ++ rest := scanFirst_decomp hs
        cases u with
        | nil =>
          simp only [List.nil_append] at huv
          rw [← huv]
          simp only [List.cons_append]
          rw [← hd]
          exact hm
        | cons x xs =>
          simp only [List.cons_append, List.cons.injEq] at huv
          refine ih hs xs v huv.2 ?_
          simpa using hu
      | none => rw [hs] at h; cases h

/-- A failed search means the matcher fails at every suffix (given that it
also fails on the empty string). -/
theorem scanFirst_none {α : Type} {m : Str → Option (Nat × α)} {s : Str}
    (h : scanFirst m s = none) (hm0 : m [] = none) :
    ∀ u v, s = u ++ v → m v = none := by
  induction s with
  | nil =>
    intro u v huv
    rcases List.append_eq_nil.mp huv.symm with ⟨rfl, rfl⟩
    exact hm0
  | cons c cs ih =>
    cases hm : m (c :: cs) with
    | some la =>
      obtain ⟨len, a0⟩ := la
      rw [scanFirst_cons_of_matchAt hm] at h
      cases h
    | none =>
      rw [scanFirst_cons_of_noMatchAt hm] at h
      cases hs : scanFirst m cs with
      | some r =>
        obtain ⟨p2, m2, a2, r2⟩ := r
        rw [hs] at h
        cases h
      | none =>
        intro u v huv
        cases u with
        | nil => simp only [List.nil_append] at huv; rw [← huv]; exact hm
        | cons x xs =>
          simp only [List.cons_append, List.cons.injEq] at huv
          exact ih hs xs v huv.2

/-- `subOnce` rewrites exactly the leftmost match. -/
theorem subOnce_of_scanFirst {α : Type} {m : Str → Option (Nat × α)}
    {repl : Str → α → Str} {s pre mt : Str} {a : α} {rest : Str}
    (h : scanFirst m s = some (pre, mt, a, rest)) :
    subOnce m repl s = pre ++ repl mt a ++ rest := by
  induction s generalizing pre mt a rest with
  | nil => simp [scanFirst] at h
  | cons c cs ih =>
    cases hm : m (c :: cs) with
    | some la =>
      obtain ⟨len, a0⟩ := la
      rw [scanFirst_cons_of_matchAt hm] at h
      simp only [Option.some.injEq, Prod.mk.injEq] at h
      obtain ⟨h1, h2, h3, h4⟩ := h
      subst h1; subst h2; subst h3; subst h4
      rw [subOnce, hm]
      simp
    | none =>
      rw [scanFirst_cons_of_noMatchAt hm] at h
      cases hs : scanFirst m cs with
      | some r =>
        obtain ⟨p2, m2, a2, r2⟩ := r
        rw [hs] at h
        simp only [Option.some.injEq, Prod.mk.injEq] at h
        obtain ⟨h1, h2, h3, h4⟩ := h
        subst h1
        rw [h2, h3, h4] at hs
        rw [subOnce, hm]
        simp [ih hs]
      | none => rw [hs] at h; cases h

/-- `subOnce` on a match-free string is the identity. -/
theorem subOnce_of_none {α : Type} {m : Str → Option (Nat × α)}
    {repl : Str → α → Str} {s : Str} (h : scanFirst m s = none) :
    subOnce m repl s = s := by
  induction s with
  | nil => simp [subOnce]
  | cons c cs ih =>
    cases hm : m (c :: cs) with
    | some la =>
      obtain ⟨len, a0⟩ := la
      rw [scanFirst_cons_of_matchAt hm] at h
      cases h
    | none =>
      rw [scanFirst_cons_of_noMatchAt hm] at h
      cases hs : scanFirst m cs with
      | some r =>
        obtain ⟨p2, m2, a2, r2⟩ := r
        rw [hs] at h
        cases h
      | none =>
        rw [subOnce, hm]
        exact congrArg (c :: ·) (ih hs)

/- ----------------------------------------------------------------
   Pass-1 fold characterisation.
   ---------------------------------------------------------------- -/

theorem step_acc_length (hexes : Nat → Str) (st : P1) (p : Str) :
    (step hexes st p).acc.length = st.acc.length + 1 := by
  unfold step
  cases hc : classify p <;> simp only
  · cases hl : scanFirst matchLocAt p with
    | none => simp
    | some r => cases hcid : scanFirst matchCidAt p <;> simp
  · simp
  · simp

theorem step_htmlInfo_markup (hexes : Nat → Str) (st : P1) (p : Str)
    (h : classify p = .markup) :
    (step hexes st p).htmlInfo = some (st.acc.length, encOf p, p) := by
  unfold step
  rw [h]

theorem step_htmlInfo_other (hexes : Nat → Str) (st : P1) (p : Str)
    (h : classify p ≠ .markup) :
    (step hexes st p).htmlInfo = st.htmlInfo := by
  unfold step
  cases hc : classify p
  · cases hl : scanFirst matchLocAt p with
    | none => rfl
    | some r => cases hcid : scanFirst matchCidAt p <;> rfl
  · exact absurd hc h
  · rfl

/-- The pass-1 fold records the markup part seen last. -/
theorem foldl_step_htmlIdx (hexes : Nat → Str) (ps : List Str) (st : P1) :
    ((ps.foldl (step hexes) st).htmlInfo).map (fun x => x.1) =
      match lastMarkupIdx ps with
      | some i => some (st.acc.length + i)
      | none => (st.htmlInfo).map (fun x => x.1) := by
  induction ps generalizing st with
  | nil => simp [lastMarkupIdx]
  | cons p ps ih =>
    simp only [List.foldl_cons, lastMarkupIdx]
    rw [ih (step hexes st p)]
    cases hl : lastMarkupIdx ps with
    | some i =>
      simp only [step_acc_length]
      congr 1
      omega
    | none =>
      simp only
      by_cases hc : classify p = Kind.markup
      · rw [step_htmlInfo_markup hexes st p hc, if_pos hc]
        simp
      · rw [step_htmlInfo_other hexes st p hc, if_neg hc]

theorem lastMarkupIdx_eq_none_iff (ps : List Str) :
    lastMarkupIdx ps = none ↔ ∀ p ∈ ps, classify p ≠ Kind.markup := by
  induction ps with
  | nil => simp [lastMarkupIdx]
  | cons p ps ih =>
    simp only [lastMarkupIdx]
    cases hl : lastMarkupIdx ps with
    | some i =>
      simp only
      constructor
      · intro h; cases h
      · intro h
        exfalso
        have := ih.mpr (fun q hq => h q (List.mem_cons_of_mem _ hq))
        rw [hl] at this; cases this
    | none =>
      simp only
      constructor
      · intro h
        intro q hq
        rcases List.mem_cons.mp hq with rfl | hq2
        · intro hc
          rw [if_pos hc] at h
          cases h
        · exact ih.mp hl q hq2
      · intro h
        rw [if_neg (h p (List.mem_cons_self p ps))]

/- ----------------------------------------------------------------
   C9: image part without a location header passes through untouched.
   ---------------------------------------------------------------- -/

/-- C9 (confirmed).  For every part classified `Image` that has no location
header, pass 1 appends the part's bytes unchanged to the output sequence and
leaves the reference map (and all other state) untouched. -/
theorem c9_image_without_location_untouched (hexes : Nat → Str) (st : P1) (part : Str)
    (himg : classify part = Kind.image)
    (hloc : scanFirst matchLocAt part = none) :
    step hexes st part =
      { refMap := st.refMap, htmlInfo := st.htmlInfo, acc := st.acc ++ [part], k := st.k } := by
  unfold step
  rw [himg, hloc]

/-- Witness for C9 at a concrete image part lacking a `Content-Location` header. -/
theorem c9_witness :
    classify "Content-Type: image/png\r\n\r\nRAWDATA".data = Kind.image ∧
    scanFirst matchLocAt "Content-Type: image/png\r\n\r\nRAWDATA".data = none ∧
    step (fun _ => []) initP1 "Content-Type: image/png\r\n\r\nRAWDATA".data =
      { refMap := [], htmlInfo := none,
        acc := [] ++ ["Content-Type: image/png\r\n\r\nRAWDATA".data], k := 0 } :=
  ⟨by decide, by decide,
    c9_image_without_location_untouched (fun _ => []) initP1 _ (by decide) (by decide)⟩

/- ----------------------------------------------------------------
   C5: nothing is written on a fatal error.
   ---------------------------------------------------------------- -/

/-- C5 (confirmed).  Under any of the four fatal conditions — missing input
file, unreadable input, no boundary parameter, no markup part — the run never
opens the output file, so no output artifact is created. -/
theorem c5_fatal_no_output (fileOk : Bool) (readRes : Option Str) (hexes : Nat → Str)
    (h : fileOk = false ∨ readRes = none ∨
      (∃ c, readRes = some c ∧ scanFirst matchBoundaryAt c = none) ∨
      (∃ c br, readRes = some c ∧ scanFirst matchBoundaryAt c = some br ∧
        ∀ p ∈ middleParts (splitOnSub c ('-' :: '-' :: br.2.2.1)),
          classify p ≠ Kind.markup)) :
    Ev.openOutput ∉ (runFixTr fileOk readRes hexes).1 := by
  rcases h with h | h | ⟨c, hc, hb⟩ | ⟨c, br, hc, hb, hnm⟩
  · subst h; simp [runFixTr]
  · subst h
    cases fileOk <;> simp [runFixTr]
  · subst hc
    cases fileOk
    · simp [runFixTr]
    · simp [runFixTr, core, hb]
  · subst hc
    cases fileOk
    · simp [runFixTr]
    · have hnone : lastMarkupIdx (middleParts (splitOnSub c ('-' :: '-' :: br.2.2.1))) = none :=
        (lastMarkupIdx_eq_none_iff _).mpr hnm
      have hinfo : (((middleParts (splitOnSub c ('-' :: '-' :: br.2.2.1))).foldl
          (step hexes) initP1).htmlInfo) = none := by
        have h2 := foldl_step_htmlIdx hexes
          (middleParts (splitOnSub c ('-' :: '-' :: br.2.2.1))) initP1
        rw [hnone] at h2
        simp only [initP1] at h2
        exact Option.map_eq_none'.mp h2
      obtain ⟨b1, bm, ba, brr⟩ := br
      simp only at hinfo
      simp [runFixTr, core, hb, hinfo]

/-- Witness for C5, exercising the no-markup branch on a concrete archive. -/
theorem c5_witness :
    (∃ c br, some "boundary=\"Q\"--Qjunk--Q--\r\n".data = some c ∧
        scanFirst matchBoundaryAt c = some br ∧
        ∀ p ∈ middleParts (splitOnSub c ('-' :: '-' :: br.2.2.1)),
          classify p ≠ Kind.markup) ∧
    Ev.openOutput ∉ (runFixTr true (some "boundary=\"Q\"--Qjunk--Q--\r\n".data)
      (fun _ => []) ).1 := by
  refine ⟨⟨"boundary=\"Q\"--Qjunk--Q--\r\n".data,
    ("".data, "boundary=\"Q\"".data, "Q".data, "--Qjunk--Q--\r\n".data), rfl, by decide,
    by decide⟩, ?_⟩
  exact c5_fatal_no_output true (some "boundary=\"Q\"--Qjunk--Q--\r\n".data) (fun _ => [])
    (Or.inr (Or.inr (Or.inr ⟨"boundary=\"Q\"--Qjunk--Q--\r\n".data,
      ("".data, "boundary=\"Q\"".data, "Q".data, "--Qjunk--Q--\r\n".data), rfl, by decide,
      by decide⟩)))

/- ----------------------------------------------------------------
   Occurrences across a separator that ends in a newline.
   ---------------------------------------------------------------- -/

/-- A literal without `'\n'` cannot be a prefix reaching past a `'\n'`:
what follows the newline is irrelevant. -/
theorem litPref_through_nl {lit : Str} (hlit : ∀ c ∈ lit, c ≠ '\n') :
    ∀ C B B2 : Str, litPref lit (C ++ '\n' :: B) = litPref lit (C ++ '\n' :: B2) := by
  induction lit with
  | nil => intro C B B2; simp [litPref]
  | cons l ls ih =>
    intro C B B2
    cases C with
    | nil =>
      simp only [List.nil_append, litPref]
      have hl : l ≠ '\n' := hlit l (List.mem_cons_self l ls)
      simp [hl]
    | cons c C2 =>
      simp only [List.cons_append, litPref]
      exact congrArg (fun b => decide (l = c) && b)
        (ih (fun x hx => hlit x (List.mem_cons_of_mem l hx)) C2 B B2)

/-- For a literal without `'\n'`, occurrence in `A ++ '\n' :: B` splits cleanly:
no occurrence can straddle the newline. -/
theorem hasInfix_append_nl {lit : Str} (hlit : ∀ c ∈ lit, c ≠ '\n') :
    ∀ A B : Str,
      hasInfix (A ++ '\n' :: B) lit = (hasInfix (A ++ ['\n']) lit || hasInfix B lit) := by
  intro A B
  induction A with
  | nil =>
    simp only [List.nil_append, hasInfix]
    cases lit with
    | nil => simp [litPref, List.isEmpty]
    | cons l ls =>
      have hl : l ≠ '\n' := hlit l (List.mem_cons_self l ls)
      simp [litPref, hl, List.isEmpty]
  | cons a A2 ih =>
    simp only [List.cons_append, hasInfix, List.append_eq, ih]
    have hlp := litPref_through_nl hlit (a :: A2) B []
    simp only [List.cons_append] at hlp
    rw [hlp]
    simp [Bool.or_assoc]

/- ----------------------------------------------------------------
   C8: classification is a whole-part substring test, not a header test.
   ---------------------------------------------------------------- -/

/-- C8 counterexample.  Two parts with byte-identical header blocks (the same
`Content-Type: text/plain` header) are classified differently because the
classifier searches the whole part bytes, so a body containing the literal
`Content-Type: image` flips the classification. -/
theorem c8_counterexample :
    headerBlockOf "Content-Type: text/plain\r\n\r\nhello there".data =
        headerBlockOf "Content-Type: text/plain\r\n\r\nsee Content-Type: image here".data ∧
      headerBlockOf "Content-Type: text/plain\r\n\r\nhello there".data =
        some "Content-Type: text/plain\r\n\r\n".data ∧
      classify "Content-Type: text/plain\r\n\r\nhello there".data = Kind.other ∧
      classify "Content-Type: text/plain\r\n\r\nsee Content-Type: image here".data =
        Kind.image := by
  refine ⟨by decide, by decide, by decide, by decide⟩

/-- C8 amended (proved).  Classification is decided by searching the entire
part bytes for the two `Content-Type` literals; it agrees on two parts with
the same header block only when neither body contains either literal.  Under
that restriction the original claim holds: the bodies cannot influence the
result, because neither literal contains a newline and so no occurrence can
straddle the header/body separator. -/
theorem c8_amended (hd b1 b2 : Str)
    (h1 : hasInfix b1 ctImage = false) (h2 : hasInfix b1 ctHtml = false)
    (h3 : hasInfix b2 ctImage = false) (h4 : hasInfix b2 ctHtml = false) :
    classify (hd ++ '\r' :: '\n' :: '\r' :: '\n' :: b1) =
      classify (hd ++ '\r' :: '\n' :: '\r' :: '\n' :: b2) := by
  have hImgNl : ∀ c ∈ ctImage, c ≠ '\n' := by decide
  have hHtmlNl : ∀ c ∈ ctHtml, c ≠ '\n' := by decide
  have key : ∀ (lit b : Str), (∀ c ∈ lit, c ≠ '\n') → hasInfix b lit = false →
      hasInfix (hd ++ '\r' :: '\n' :: '\r' :: '\n' :: b) lit =
        hasInfix ((hd ++ '\r' :: '\n' :: ['\r']) ++ ['\n']) lit := by
    intro lit b hnl hb
    have : hd ++ '\r' :: '\n' :: '\r' :: '\n' :: b =
        (hd ++ '\r' :: '\n' :: ['\r']) ++ '\n' :: b := by simp
    rw [this, hasInfix_append_nl hnl, hb, Bool.or_false]
  unfold classify
  rw [key ctImage b1 hImgNl h1, key ctImage b2 hImgNl h3,
    key ctHtml b1 hHtmlNl h2, key ctHtml b2 hHtmlNl h4]

/-- Witness instantiating the amended C8 at concrete parts. -/
theorem c8_amended_witness :
    hasInfix "body one".data ctImage = false ∧
    hasInfix "body two!".data ctHtml = false ∧
    classify ("X-H: v".data ++ '\r' :: '\n' :: '\r' :: '\n' :: "body one".data) =
      classify ("X-H: v".data ++ '\r' :: '\n' :: '\r' :: '\n' :: "body two!".data) :=
  ⟨by decide, by decide,
    c8_amended "X-H: v".data "body one".data "body two!".data
      (by decide) (by decide) (by decide) (by decide)⟩

/- ----------------------------------------------------------------
   C10: the header/body split succeeds exactly when a blank-line
   separator is present.
   ---------------------------------------------------------------- -/

theorem matchBlank_shape {w : Str} {la : Nat × Unit} (h : matchBlankAt w = some la) :
    (∃ t, w = '\r' :: '\n' :: '\r' :: '\n' :: t) ∨
    (∃ t, w = '\r' :: '\n' :: '\n' :: t) ∨
    (∃ t, w = '\n' :: '\r' :: '\n' :: t) ∨
    (∃ t, w = '\n' :: '\n' :: t) := by
  unfold matchBlankAt at h
  split at h
  · exact Or.inl ⟨_, rfl⟩
  · exact Or.inr (Or.inl ⟨_, rfl⟩)
  · exact Or.inr (Or.inr (Or.inl ⟨_, rfl⟩))
  · exact Or.inr (Or.inr (Or.inr ⟨_, rfl⟩))
  · cases h

/-- The search for the separator fails precisely when the part contains
neither `\n\n` nor `\n\r\n`. -/
theorem scanBlank_none_iff (p : Str) :
    scanFirst matchBlankAt p = none ↔
      (hasInfix p ('\n' :: ['\n']) = false ∧ hasInfix p ('\n' :: '\r' :: ['\n']) = false) := by
  constructor
  · intro h
    constructor
    · cases hin : hasInfix p ('\n' :: ['\n']) with
      | false => rfl
      | true =>
        exfalso
        obtain ⟨u, v, huv⟩ := hasInfix_iff.mp hin
        have hnone := scanFirst_none h (by decide) u ('\n' :: '\n' :: v) (by simpa using huv)
        simp [matchBlankAt] at hnone
    · cases hin : hasInfix p ('\n' :: '\r' :: ['\n']) with
      | false => rfl
      | true =>
        exfalso
        obtain ⟨u, v, huv⟩ := hasInfix_iff.mp hin
        have hnone := scanFirst_none h (by decide) u ('\n' :: '\r' :: '\n' :: v)
          (by simpa using huv)
        simp [matchBlankAt] at hnone
  · rintro ⟨h1, h2⟩
    cases hscan : scanFirst matchBlankAt p with
    | none => rfl
    | some r =>
      exfalso
      obtain ⟨pre, mt, a, rest⟩ := r
      have hdec := scanFirst_decomp hscan
      have hhit := scanFirst_hit (m := matchBlankAt) ?hle hscan
      case hle =>
        intro t len a0 hm
        unfold matchBlankAt at hm
        split at hm <;> simp_all <;> omega
      rcases matchBlank_shape hhit with ⟨t, ht⟩ | ⟨t, ht⟩ | ⟨t, ht⟩ | ⟨t, ht⟩
      · have : p = (pre ++ ['\r']) ++ ('\n' :: '\r' :: ['\n']) ++ t := by
          rw [hdec, List.append_assoc, ht]; simp
        rw [hasInfix_iff.mpr ⟨pre ++ ['\r'], t, this⟩] at h2
        cases h2
      · have : p = (pre ++ ['\r']) ++ ('\n' :: ['\n']) ++ t := by
          rw [hdec, List.append_assoc, ht]; simp
        rw [hasInfix_iff.mpr ⟨pre ++ ['\r'], t, this⟩] at h1
        cases h1
      · have : p = pre ++ ('\n' :: '\r' :: ['\n']) ++ t := by
          rw [hdec, List.append_assoc, ht]; simp
        rw [hasInfix_iff.mpr ⟨pre, t, this⟩] at h2
        cases h2
      · have : p = pre ++ ('\n' :: ['\n']) ++ t := by
          rw [hdec, List.append_assoc, ht]; simp
        rw [hasInfix_iff.mpr ⟨pre, t, this⟩] at h1
        cases h1

/-- C10 (confirmed).  Once a markup part has been selected, the run crashes at
the header-end position access exactly when that part contains no blank-line
separator (no `\n\n` and no `\n\r\n`); when a separator is present the crash
branch is unreachable. -/
theorem c10_split_total_iff_separator (hexes : Nat → Str) (content : Str)
    (br : Str × Str × Str × Str) (info : Nat × Str × Str)
    (hb : scanFirst matchBoundaryAt content = some br)
    (hinfo : ((middleParts (splitOnSub content ('-' :: '-' :: br.2.2.1))).foldl
      (step hexes) initP1).htmlInfo = some info) :
    core hexes content = .error .headerCrash ↔
      (hasInfix info.2.2 ('\n' :: ['\n']) = false ∧
        hasInfix info.2.2 ('\n' :: '\r' :: ['\n']) = false) := by
  obtain ⟨b1, bm, ba, brr⟩ := br
  obtain ⟨idx, enc, hbytes⟩ := info
  simp only at hinfo
  rw [← scanBlank_none_iff]
  simp only [core, hb, hinfo]
  cases hscan : scanFirst matchBlankAt hbytes with
  | none => simp
  | some r => simp

/-- Witness for C10 on a concrete archive whose markup part has no blank line. -/
theorem c10_witness :
    core (fun _ => "aaaaaaaa".data) "boundary=\"Q\"--QContent-Type: text/html--Q--\r\n".data =
      .error .headerCrash :=
  (c10_split_total_iff_separator (fun _ => "aaaaaaaa".data)
    "boundary=\"Q\"--QContent-Type: text/html--Q--\r\n".data
    ("".data, "boundary=\"Q\"".data, "Q".data, "--QContent-Type: text/html--Q--\r\n".data)
    (0, "7bit".data, "Content-Type: text/html".data)
    (by decide) (by decide)).mpr ⟨by decide, by decide⟩

/- ----------------------------------------------------------------
   C1: which markup part gets processed.
   ---------------------------------------------------------------- -/

/-- C1 counterexample.  An archive with two markup parts: the first markup
part (index 0) appears in the output byte-for-byte unprocessed (its `<img`
tag is not normalised), while the second one is the part the rewriter
processed — refuting "processes exactly the first such part". -/
theorem c1_counterexample :
    classify ((middleParts (splitOnSub "boundary=\"B\"--B\r\nContent-Type: text/html\r\n\r\n<img src=x>--B\r\nContent-Type: text/html\r\n\r\n<img src=x>--B--\r\n".data ("--B".data))).getD 0 []) = Kind.markup ∧
    (((middleParts (splitOnSub "boundary=\"B\"--B\r\nContent-Type: text/html\r\n\r\n<img src=x>--B\r\nContent-Type: text/html\r\n\r\n<img src=x>--B--\r\n".data ("--B".data))).foldl
        (step (fun _ => "aaaaaaaa".data)) initP1).htmlInfo).map (fun x => x.1) = some 1 ∧
    core (fun _ => "aaaaaaaa".data) "boundary=\"B\"--B\r\nContent-Type: text/html\r\n\r\n<img src=x>--B\r\nContent-Type: text/html\r\n\r\n<img src=x>--B--\r\n".data =
      .ok "boundary=\"B\"--B\r\nContent-Type: text/html\r\n\r\n<img src=x>--B\r\nContent-Type: text/html\r\n\r\n<img src=x/>--B--\r\n".data := by
  refine ⟨by decide, by decide, by decide⟩

/-- C1 amended (proved).  The rewriter processes exactly the *last* part
classified `Markup` (each markup part overwrites the recorded selection), and
if no markup part exists the run fails with the missing-markup error and never
opens the output file. -/
theorem c1_last_markup_selected_and_missing_markup_fatal :
    (∀ (hexes : Nat → Str) (parts : List Str),
      (((parts.foldl (step hexes) initP1).htmlInfo).map (fun x => x.1)) =
        lastMarkupIdx parts) ∧
    (∀ (hexes : Nat → Str) (content : Str) (br : Str × Str × Str × Str),
      scanFirst matchBoundaryAt content = some br →
      lastMarkupIdx (middleParts (splitOnSub content ('-' :: '-' :: br.2.2.1))) = none →
      core hexes content = .error .missingMarkup ∧
        Ev.openOutput ∉ (runFixTr true (some content) hexes).1) := by
  constructor
  · intro hexes parts
    have h := foldl_step_htmlIdx hexes parts initP1
    simp only [initP1] at h
    simp only [initP1]
    rw [h]
    cases hl : lastMarkupIdx parts <;> simp
  · intro hexes content br hb hnone
    have hinfo : (((middleParts (splitOnSub content ('-' :: '-' :: br.2.2.1))).foldl
        (step hexes) initP1).htmlInfo) = none := by
      have h2 := foldl_step_htmlIdx hexes
        (middleParts (splitOnSub content ('-' :: '-' :: br.2.2.1))) initP1
      rw [hnone] at h2
      simp only [initP1] at h2
      exact Option.map_eq_none'.mp h2
    obtain ⟨b1, bm, ba, brr⟩ := br
    simp only at hinfo
    constructor
    · simp [core, hb, hinfo]
    · simp [runFixTr, core, hb, hinfo]

/-- Witness for the amended C1: the selection equation at a concrete part list,
and the missing-markup failure on a concrete markup-free archive. -/
theorem c1_witness :
    ((((["zzz".data].foldl (step (fun _ => "aaaaaaaa".data)) initP1).htmlInfo).map
        (fun x => x.1)) = lastMarkupIdx ["zzz".data]) ∧
    core (fun _ => "aaaaaaaa".data) "boundary=\"Q\"--Qjunk--Q--\r\n".data =
        .error .missingMarkup ∧
      Ev.openOutput ∉ (runFixTr true (some "boundary=\"Q\"--Qjunk--Q--\r\n".data)
        (fun _ => "aaaaaaaa".data)).1 :=
  ⟨c1_last_markup_selected_and_missing_markup_fatal.1 (fun _ => "aaaaaaaa".data) ["zzz".data],
    c1_last_markup_selected_and_missing_markup_fatal.2 (fun _ => "aaaaaaaa".data)
      "boundary=\"Q\"--Qjunk--Q--\r\n".data
      ("".data, "boundary=\"Q\"".data, "Q".data, "--Qjunk--Q--\r\n".data)
      (by decide) (by decide)⟩

/- ----------------------------------------------------------------
   C2: how a resolved src attribute is rewritten.
   ---------------------------------------------------------------- -/

/-- C2 counterexample.  A single-quoted `src` attribute that resolves through
the map is rewritten to a *double-quoted* attribute: the original quoting
style is not preserved (the whole attribute is replaced by `src="cid:..."`). -/
theorem c2_counterexample :
    fixImgTag [("a.png".data, "NEWCID".data)]
        ('<' :: 'i' :: 'm' :: 'g' :: ' ' :: 's' :: 'r' :: 'c' :: '=' :: qSgl ::
          ('a' :: '.' :: 'p' :: 'n' :: 'g' :: qSgl :: ['>'])) =
      ('<' :: 'i' :: 'm' :: 'g' :: ' ' :: 's' :: 'r' :: 'c' :: '=' :: qDbl ::
        ('c' :: 'i' :: 'd' :: ':' :: 'N' :: 'E' :: 'W' :: 'C' :: 'I' :: 'D' :: qDbl ::
          '/' :: ['>'])) ∧
    hasInfix (fixImgTag [("a.png".data, "NEWCID".data)]
        ('<' :: 'i' :: 'm' :: 'g' :: ' ' :: 's' :: 'r' :: 'c' :: '=' :: qSgl ::
          ('a' :: '.' :: 'p' :: 'n' :: 'g' :: qSgl :: ['>']))) [qSgl] = false := by
  refine ⟨by decide, by decide⟩

/-- C2 amended (proved).  When the tag's `src` attribute (the leftmost match of
the src pattern) resolves to a new identifier, the rewrite replaces the entire
matched attribute — value, quoting and surrounding `=`-whitespace — with the
double-quoted identifier-scheme reference `src="cid:<new>"`, leaves the bytes
before and after that attribute unchanged, and then normalises the tag
termination. -/
theorem c2_resolved_src_rewrite (rm : List (Str × Str)) (tag pre mt v rest cid : Str)
    (hscan : scanFirst matchSrcAt tag = some (pre, mt, v, rest))
    (hres : resolveRef rm (if lowerStr (v.take 4) = "cid:".data then v.drop 4 else v) =
      some cid)
    (hne : cid ≠ []) :
    fixImgTag rm tag = selfCloseApp (pre ++ srcAttrTxt cid ++ rest) := by
  unfold fixImgTag
  rw [hscan]
  simp only
  rw [hres]
  simp only [List.isEmpty_iff, if_neg hne]
  rw [subOnce_of_scanFirst hscan]

/-- Witness for the amended C2 at a concrete unquoted attribute. -/
theorem c2_witness :
    scanFirst matchSrcAt "<img alt=q src=a.png>".data =
      some ("<img alt=q ".data, "src=a.png".data, "a.png".data, [('>' : Char)]) ∧
    resolveRef [("a.png".data, "NEWCID".data)] "a.png".data = some "NEWCID".data ∧
    fixImgTag [("a.png".data, "NEWCID".data)] "<img alt=q src=a.png>".data =
      selfCloseApp ("<img alt=q ".data ++ srcAttrTxt "NEWCID".data ++ [('>' : Char)]) := by
  refine ⟨by decide, by decide, ?_⟩
  exact c2_resolved_src_rewrite [("a.png".data, "NEWCID".data)] "<img alt=q src=a.png>".data
    "<img alt=q ".data "src=a.png".data "a.png".data [('>' : Char)] "NEWCID".data
    (by decide) (by decide) (by decide)

/- ----------------------------------------------------------------
   Case-insensitive prefix/occurrence lemmas.
   ---------------------------------------------------------------- -/

theorem ciStarts_length {lit s : Str} (h : ciStarts lit s = true) : lit.length ≤ s.length := by
  induction lit generalizing s with
  | nil => simp
  | cons l ls ih =>
    cases s with
    | nil => simp [ciStarts] at h
    | cons c cs =>
      simp only [ciStarts, Bool.and_eq_true] at h
      simpa using Nat.succ_le_succ (ih h.2)

theorem ciStarts_take_of_append {l1 l2 s : Str} (h : ciStarts (l1 ++ l2) s = true) :
    ciStarts l1 s = true := by
  induction l1 generalizing s with
  | nil => simp [ciStarts]
  | cons l ls ih =>
    cases s with
    | nil => simp [ciStarts] at h
    | cons c cs =>
      simp only [List.cons_append, ciStarts, Bool.and_eq_true] at h ⊢
      exact ⟨h.1, ih h.2⟩

/-- How a case-insensitive literal matches across a concatenation point. -/
theorem ciStarts_append_split {lit v w : Str} (h : ciStarts lit (v ++ w) = true) :
    (lit.length ≤ v.length ∧ ciStarts lit v = true) ∨
    (v.length < lit.length ∧ ciStarts (lit.drop v.length) w = true) := by
  induction lit generalizing v with
  | nil => left; simp [ciStarts]
  | cons l ls ih =>
    cases v with
    | nil =>
      right
      simpa [ciStarts] using h
    | cons c cs =>
      simp only [List.cons_append, ciStarts, Bool.and_eq_true] at h
      rcases ih (v := cs) h.2 with ⟨h1, h2⟩ | ⟨h1, h2⟩
      · left
        constructor
        · simpa using Nat.succ_le_succ h1
        · simp only [ciStarts, Bool.and_eq_true]
          exact ⟨h.1, h2⟩
      · right
        constructor
        · simpa using Nat.succ_lt_succ h1
        · simpa using h2

theorem hasInfixCI_iff {s lit : Str} :
    hasInfixCI s lit = true ↔ ∃ u v, s = u ++ v ∧ ciStarts lit v = true := by
  induction s with
  | nil =>
    simp only [hasInfixCI, List.isEmpty_iff]
    constructor
    · rintro rfl; exact ⟨[], [], rfl, by simp [ciStarts]⟩
    · rintro ⟨u, v, h, hv⟩
      rcases List.append_eq_nil.mp h.symm with ⟨rfl, rfl⟩
      have := ciStarts_length hv
      simpa using List.eq_nil_of_length_eq_zero (Nat.le_zero.mp this)
  | cons c cs ih =>
    simp only [hasInfixCI, Bool.or_eq_true, ih]
    constructor
    · rintro (h | ⟨u, v, rfl, hv⟩)
      · exact ⟨[], c :: cs, rfl, h⟩
      · exact ⟨c :: u, v, rfl, hv⟩
    · rintro ⟨u, v, huv, hv⟩
      cases u with
      | nil =>
        left
        simp only [List.nil_append] at huv
        rw [huv]; exact hv
      | cons x xs =>
        right
        simp only [List.cons_append, List.cons.injEq] at huv
        exact ⟨xs, v, huv.2, hv⟩

theorem ciStarts_append_of {lit v : Str} (hv : ciStarts lit v = true) (t : Str) :
    ciStarts lit (v ++ t) = true := by
  induction lit generalizing v with
  | nil => simp [ciStarts]
  | cons l ls ih =>
    cases v with
    | nil => simp [ciStarts] at hv
    | cons c cs =>
      simp only [List.cons_append, ciStarts, Bool.and_eq_true] at hv ⊢
      exact ⟨hv.1, ih hv.2⟩

theorem hasInfixCI_append_right {s lit : Str} (h : hasInfixCI s lit = true) (t : Str) :
    hasInfixCI (s ++ t) lit = true := by
  obtain ⟨u, v, rfl, hv⟩ := hasInfixCI_iff.mp h
  exact hasInfixCI_iff.mpr ⟨u, v ++ t, by simp, ciStarts_append_of hv t⟩

theorem hasInfixCI_append_left {s lit : Str} (h : hasInfixCI s lit = true) (t : Str) :
    hasInfixCI (t ++ s) lit = true := by
  obtain ⟨u, v, rfl, hv⟩ := hasInfixCI_iff.mp h
  exact hasInfixCI_iff.mpr ⟨t ++ u, v, by simp, hv⟩

/- ----------------------------------------------------------------
   Locating the unique match of a matcher in a structured string.
   ---------------------------------------------------------------- -/

/-- If the matcher fails at every position inside `A` and succeeds exactly on
`M` at the junction, the leftmost search reports precisely that match. -/
theorem scanFirst_exact {α : Type} {m : Str → Option (Nat × α)} {A M rest : Str} {a : α}
    (hM : M ≠ [])
    (hfail : ∀ u v, A = u ++ v → v ≠ [] → m (v ++ M ++ rest) = none)
    (hhit : m (M ++ rest) = some (M.length, a)) :
    scanFirst m (A ++ M ++ rest) = some (A, M, a, rest) := by
  induction A with
  | nil =>
    rcases List.exists_cons_of_ne_nil hM with ⟨c, M2, rfl⟩
    simp only [List.nil_append, List.cons_append, scanFirst, List.append_eq]
    rw [← List.cons_append, hhit]
    simp only [← List.cons_append, List.take_left, List.drop_left]
  | cons x xs ih =>
    have hx : m (x :: xs ++ M ++ rest) = none := by
      have := hfail [] (x :: xs) rfl (by simp)
      simpa using this
    rw [List.cons_append, List.cons_append, scanFirst]
    rw [← List.cons_append, ← List.cons_append, hx]
    simp only
    have ihh := ih (fun u v huv hv => hfail (x :: u) v (by rw [huv]; rfl) hv)
    rw [List.append_assoc] at ihh
    rw [← List.append_assoc] at ihh
    rw [ihh]

/- ----------------------------------------------------------------
   The findall-style scan for Content-ID headers.
   ---------------------------------------------------------------- -/

theorem angleVal_len {t : Str} {l : Nat} {v : Str} (h : angleVal t = some (l, v)) :
    1 ≤ l ∧ l ≤ t.length := by
  cases t with
  | nil => cases h
  | cons c t2 =>
    unfold angleVal at h
    dsimp only at h
    by_cases hc : c = '<'
    · rw [if_pos hc] at h
      by_cases h2 : (t2.takeWhile (fun x => !(x = '>'))).length = 0
      · rw [if_pos h2] at h; cases h
      · rw [if_neg h2] at h
        cases hdrop : t2.drop (t2.takeWhile (fun x => !(x = '>'))).length with
        | nil => rw [hdrop] at h; cases h
        | cons d ds =>
          rw [hdrop] at h
          split at h
          · split at h
            · rw [Option.some.injEq, Prod.mk.injEq] at h
              obtain ⟨rfl, rfl⟩ := h
              have h3 : t2.length - (t2.takeWhile (fun x => !(x = '>'))).length =
                  (d :: ds).length := by
                rw [← List.length_drop, hdrop]
              have h4 := (List.takeWhile_sublist (l := t2) (fun x => !(x = '>'))).length_le
              simp only [List.length_cons] at h3
              constructor
              · omega
              · simp only [List.length_cons]
                omega
            · cases h
          · cases h
    · rw [if_neg hc] at h; cases h

/- ----------------------------------------------------------------
   Facts about the Content-ID matcher and the generated identifiers.
   ---------------------------------------------------------------- -/

theorem cidLit_eq : cidLit = cidLit10 ++ [':'] := by decide

theorem matchCid_ciStarts {s : Str} {la : Nat × Str} (h : matchCidAt s = some la) :
    ciStarts cidLit s = true := by
  unfold matchCidAt at h
  by_cases hg : ciStarts "content-id:".data s = true
  · exact hg
  · rw [if_neg hg] at h; cases h

theorem matchCidAt_len {s : Str} {len : Nat} {v : Str}
    (h : matchCidAt s = some (len, v)) : 1 ≤ len ∧ len ≤ s.length := by
  have hci := matchCid_ciStarts h
  have h11 : 11 ≤ s.length := by
    have := ciStarts_length hci
    simpa using this
  unfold matchCidAt at h
  rw [if_pos (show ciStarts "content-id:".data s = true from hci)] at h
  cases hdp : s.drop 11 with
  | nil => rw [hdp] at h; cases h
  | cons c t =>
    rw [hdp] at h
    dsimp only at h
    have ht : s.length = t.length + 12 := by
      have hlen := congrArg List.length hdp
      simp only [List.length_drop, List.length_cons] at hlen
      omega
    by_cases hc : c = ' '
    · rw [if_pos hc] at h
      rcases Option.map_eq_some'.mp h with ⟨la, hla, hba⟩
      have hl : 12 + la.1 = len := by
        rw [Prod.mk.injEq] at hba
        exact hba.1
      have hal := angleVal_len hla
      omega
    · rw [if_neg hc] at h
      rcases Option.map_eq_some'.mp h with ⟨la, hla, hba⟩
      have hl : 11 + la.1 = len := by
        rw [Prod.mk.injEq] at hba
        exact hba.1
      have hal := angleVal_len hla
      simp only [List.length_cons] at hal
      omega

theorem scanCid_none_vals (fuel : Nat) :
    ∀ s : Str, scanFirst matchCidAt s = none → scanCidVals fuel s = [] := by
  induction fuel with
  | zero => intro s _; rfl
  | succ f ih =>
    intro s hs
    cases s with
    | nil => rfl
    | cons c cs =>
      cases hm : matchCidAt (c :: cs) with
      | some la =>
        obtain ⟨len, a0⟩ := la
        rw [scanFirst_cons_of_matchAt hm] at hs
        cases hs
      | none =>
        rw [scanFirst_cons_of_noMatchAt hm] at hs
        cases hrec : scanFirst matchCidAt cs with
        | some r =>
          obtain ⟨p2, m2, a2, r2⟩ := r
          rw [hrec] at hs
          cases hs
        | none =>
          rw [scanCidVals, hm]
          exact ih cs hrec

theorem scanCid_hit_vals :
    ∀ (fuel : Nat) (s pre mt v rest : Str), s.length ≤ fuel →
      scanFirst matchCidAt s = some (pre, mt, v, rest) →
      ∃ fuel2, rest.length ≤ fuel2 ∧ scanCidVals fuel s = v :: scanCidVals fuel2 rest := by
  intro fuel
  induction fuel with
  | zero =>
    intro s pre mt v rest hle hscan
    have : s = [] := List.eq_nil_of_length_eq_zero (Nat.le_zero.mp hle)
    subst this
    simp [scanFirst] at hscan
  | succ f ih =>
    intro s pre mt v rest hle hscan
    cases s with
    | nil => simp [scanFirst] at hscan
    | cons c cs =>
      cases hm : matchCidAt (c :: cs) with
      | some la =>
        obtain ⟨len, a0⟩ := la
        rw [scanFirst_cons_of_matchAt hm] at hscan
        simp only [Option.some.injEq, Prod.mk.injEq] at hscan
        obtain ⟨h1, h2, h3, h4⟩ := hscan
        refine ⟨f, ?_, ?_⟩
        · rw [← h4]
          have hml := matchCidAt_len hm
          simp only [List.length_drop, List.length_cons] at *
          omega
        · rw [scanCidVals, hm, h3]
          show v :: scanCidVals f (List.drop len (c :: cs)) = v :: scanCidVals f rest
          rw [h4]
      | none =>
        rw [scanFirst_cons_of_noMatchAt hm] at hscan
        cases hrec : scanFirst matchCidAt cs with
        | some r =>
          obtain ⟨p2, m2, a2, r2⟩ := r
          rw [hrec] at hscan
          simp only [Option.some.injEq, Prod.mk.injEq] at hscan
          obtain ⟨h1, h2, h3, h4⟩ := hscan
          rw [h2, h3, h4] at hrec
          have hcs : cs.length ≤ f := by
            simp only [List.length_cons] at hle
            omega
          obtain ⟨fuel2, hf2, heq⟩ := ih cs p2 mt v rest hcs hrec
          exact ⟨fuel2, hf2, by rw [scanCidVals, hm, heq]⟩
        | none => rw [hrec] at hscan; cases hscan

/-- A string whose leftmost Content-ID match is followed by a match-free
remainder carries exactly one identifier header. -/
theorem cidVals_single {s pre mt v rest : Str}
    (hscan : scanFirst matchCidAt s = some (pre, mt, v, rest))
    (hrest : scanFirst matchCidAt rest = none) :
    cidVals s = [v] := by
  obtain ⟨fuel2, _, heq⟩ := scanCid_hit_vals s.length s pre mt v rest (Nat.le_refl _) hscan
  rw [cidVals, heq, scanCid_none_vals fuel2 rest hrest]

theorem takeWhile_append_cons {p : Char → Bool} {xs : Str} {y : Char} {ys : Str}
    (hxs : ∀ x ∈ xs, p x = true) (hy : p y = false) :
    (xs ++ y :: ys).takeWhile p = xs := by
  induction xs with
  | nil => simp [List.takeWhile, hy]
  | cons x xs2 ih =>
    simp only [List.cons_append, List.takeWhile]
    rw [hxs x (List.mem_cons_self x xs2)]
    simp only
    exact congrArg (x :: ·) (ih (fun z hz => hxs z (List.mem_cons_of_mem x hz)))

/-- The inserted/replacement header is itself a full match of the pattern. -/
theorem matchCid_on_header {cid : Str} (hne : cid ≠ [])
    (hgt : ∀ c ∈ cid, ¬(c = '>')) (w : Str) :
    matchCidAt (cidHdrTxt cid ++ w) = some ((cidHdrTxt cid).length, cid) := by
  have hshape : cidHdrTxt cid ++ w =
      "Content-ID: <".data ++ (cid ++ '>' :: w) := by
    simp [cidHdrTxt]
  rw [hshape]
  have hci : ciStarts "content-id:".data ("Content-ID: <".data ++ (cid ++ '>' :: w)) = true := by
    rfl
  unfold matchCidAt
  rw [if_pos hci]
  have hdrop : ("Content-ID: <".data ++ (cid ++ '>' :: w)).drop 11 =
      ' ' :: '<' :: (cid ++ '>' :: w) := by rfl
  rw [hdrop]
  dsimp only
  rw [if_pos rfl]
  have hrun : (cid ++ '>' :: w).takeWhile (fun x => !(x = '>')) = cid :=
    takeWhile_append_cons (fun x hx => by simpa using hgt x hx) (by simp)
  have hdrop2 : (cid ++ '>' :: w).drop cid.length = '>' :: w := List.drop_left cid ('>' :: w)
  have hne2 : ¬ cid.length = 0 := by simpa using hne
  unfold angleVal
  dsimp only
  rw [if_pos rfl, hrun, if_neg hne2, hdrop2]
  dsimp only
  rw [if_pos rfl]
  simp only [Option.map_some', Option.some.injEq, Prod.mk.injEq]
  constructor
  · simp [cidHdrTxt]
    omega
  · trivial

theorem cidLit_no_cr : ∀ l ∈ cidLit, ciEq l '\r' = false := by decide

theorem cidLit_no_lf : ∀ l ∈ cidLit, ciEq l '\n' = false := by decide

theorem cidLit_tail_no_c : ∀ l ∈ cidLit.drop 1, ciEq l 'C' = false := by decide

/-- A Content-ID match cannot begin strictly inside a string free of the
header name and extend across into what follows. -/
theorem no_cid_match_in_clean {A : Str} (hno : hasInfixCI A cidLit10 = false) :
    ∀ u v w : Str, A = u ++ v → v ≠ [] →
      (∀ z ∈ cidLit.drop v.length, v.length < cidLit.length →
        ∀ w0 ws, w = w0 :: ws → ciEq z w0 = false) →
      matchCidAt (v ++ w) = none := by
  intro u v w huv hv hcross
  cases hm : matchCidAt (v ++ w) with
  | none => rfl
  | some la =>
    exfalso
    have hci := matchCid_ciStarts hm
    rcases ciStarts_append_split hci with ⟨h1, h2⟩ | ⟨h1, h2⟩
    · have h10 : ciStarts cidLit10 v = true := by
        rw [cidLit_eq] at h2
        exact ciStarts_take_of_append h2
      have : hasInfixCI A cidLit10 = true :=
        hasInfixCI_iff.mpr ⟨u, v, huv, h10⟩
      rw [this] at hno; cases hno
    · have hdne : cidLit.drop v.length ≠ [] := by
        intro hcontra
        have hlen := congrArg List.length hcontra
        simp only [List.length_drop] at hlen
        have h11 : cidLit.length = 11 := by decide
        rw [h11] at hlen h1
        simp at hlen
        omega
      rcases List.exists_cons_of_ne_nil hdne with ⟨z, zs, hz⟩
      rw [hz] at h2
      cases w with
      | nil => simp [ciStarts] at h2
      | cons w0 ws =>
        simp only [ciStarts, Bool.and_eq_true] at h2
        rw [hcross z (by rw [hz]; exact List.mem_cons_self z zs) h1 w0 ws rfl] at h2
        exact Bool.false_ne_true h2.1

/- ----------------------------------------------------------------
   Properties of generated identifiers.
   ---------------------------------------------------------------- -/

theorem sanitize_legal {s : Str} : ∀ c ∈ sanitize s, legalCh c = true := by
  intro c hc
  rcases List.mem_map.mp hc with ⟨o, _, ho⟩
  by_cases hl : legalCh o = true
  · rw [← ho, if_pos hl]; exact hl
  · rw [← ho, if_neg hl]; decide

theorem hexDig_legal {c : Char} (h : isHexDigB c = true) : legalCh c = true := by
  simp only [isHexDigB, Bool.or_eq_true, Bool.and_eq_true, decide_eq_true_eq] at h
  simp only [legalCh, Bool.or_eq_true, Bool.and_eq_true, decide_eq_true_eq]
  rcases h with (⟨h1, h2⟩ | ⟨h1, h2⟩) | ⟨h1, h2⟩
  · tauto
  · have h3 : c ≤ 'z' := le_trans h2 (by decide)
    tauto
  · have h3 : c ≤ 'Z' := le_trans h2 (by decide)
    tauto

theorem image_chars_legal : ∀ c ∈ ("image".data : List Char), legalCh c = true := by decide

theorem fixer_chars_legal : ∀ c ∈ ("mhtml.fixer".data : List Char), legalCh c = true := by
  decide

theorem mkCid_mem {hex loc : Str} (hhex : ∀ c ∈ hex, isHexDigB c = true) :
    ∀ c ∈ mkCid hex loc, legalCh c = true ∨ c = '@' := by
  intro c hc
  unfold mkCid at hc
  rcases List.mem_append.mp hc with h1 | h2
  · left
    by_cases hh : (sanitize (basename loc)).head? = some '-'
    · rw [if_pos hh] at h1
      rcases List.mem_append.mp h1 with hi | hs
      · exact image_chars_legal c hi
      · exact sanitize_legal c hs
    · rw [if_neg hh] at h1
      exact sanitize_legal c h1
  · rcases List.mem_cons.mp h2 with rfl | h3
    · left; decide
    · rcases List.mem_append.mp h3 with hh | h4
      · exact Or.inl (hexDig_legal (hhex c hh))
      · rcases List.mem_cons.mp h4 with rfl | h5
        · right; rfl
        · exact Or.inl (fixer_chars_legal c h5)

theorem mkCid_no_gt {hex loc : Str} (hhex : ∀ c ∈ hex, isHexDigB c = true) :
    ∀ c ∈ mkCid hex loc, ¬(c = '>') := by
  intro c hc hcontra
  subst hcontra
  rcases mkCid_mem hhex _ hc with h | h
  · revert h; decide
  · cases h

theorem mkCid_ne_nil (hex loc : Str) : mkCid hex loc ≠ [] := by
  unfold mkCid
  intro h
  have := congrArg List.length h
  simp at this

theorem mkCid_head_not_hyphen (hex loc : Str) :
    ¬ (mkCid hex loc).head? = some '-' := by
  unfold mkCid
  by_cases hh : (sanitize (basename loc)).head? = some '-'
  · rw [if_pos hh]
    simp
  · rw [if_neg hh]
    cases hs : sanitize (basename loc) with
    | nil => simp
    | cons c cs =>
      rw [hs] at hh
      simp only [List.head?_cons, Option.some.injEq] at hh
      simp only [List.cons_append, List.head?_cons, Option.some.injEq]
      exact hh

/- ----------------------------------------------------------------
   Locating the rewritten identifier header.
   ---------------------------------------------------------------- -/

theorem matchCid_none_of_head {x : Char} (hx : ciEq 'c' x = false) (X : Str) :
    matchCidAt (x :: X) = none := by
  unfold matchCidAt
  rw [if_neg ?hg]
  case hg =>
    show ¬ ciStarts ('c' :: "ontent-id:".data) (x :: X) = true
    simp only [ciStarts, Bool.and_eq_true]
    intro hcontra
    rw [hx] at hcontra
    exact Bool.false_ne_true hcontra.1

theorem scanCid_none_of_noCI {s : Str} (hno : hasInfixCI s cidLit10 = false) :
    scanFirst matchCidAt s = none := by
  cases hs : scanFirst matchCidAt s with
  | none => rfl
  | some r =>
    exfalso
    obtain ⟨p, mt, v, rest⟩ := r
    have hd := scanFirst_decomp hs
    have hhit := scanFirst_hit (fun t len a hm => (matchCidAt_len hm).2) hs
    have hci := matchCid_ciStarts hhit
    rw [cidLit_eq] at hci
    have h10 : ciStarts cidLit10 (mt ++ rest) = true := ciStarts_take_of_append hci
    have : hasInfixCI s cidLit10 = true :=
      hasInfixCI_iff.mpr ⟨p, mt ++ rest, by rw [hd, List.append_assoc], h10⟩
    rw [this] at hno; cases hno

theorem cidLit_drop_tail {z : Char} {k : Nat} (hk : 1 ≤ k)
    (hz : z ∈ cidLit.drop k) : z ∈ cidLit.drop 1 := by
  have : cidLit.drop k = (cidLit.drop 1).drop (k - 1) := by
    rw [List.drop_drop]
    congr 1
    omega
  rw [this] at hz
  exact (List.drop_subset _ _) hz

/-- No Content-ID match can start inside the clean region `A` when what
follows is the fresh header (which begins with `C`). -/
theorem no_cid_before_header {A B cid : Str} (hno : hasInfixCI A cidLit10 = false) :
    ∀ u v, A = u ++ v → v ≠ [] → matchCidAt (v ++ (cidHdrTxt cid ++ B)) = none := by
  intro u v huv hv
  apply no_cid_match_in_clean hno u v _ huv hv
  intro z hz hlt w0 ws hw
  have hw0 : w0 = 'C' := by
    have hsh : cidHdrTxt cid ++ B =
        'C' :: ("ontent-ID: <".data ++ (cid ++ '>' :: B)) := by simp [cidHdrTxt]
    rw [hsh] at hw
    exact (List.cons.injEq .. ▸ hw).1.symm
  subst hw0
  have hv1 : 1 ≤ v.length := by
    cases v
    · exact absurd rfl hv
    · simp
  exact cidLit_tail_no_c z (cidLit_drop_tail hv1 hz)

/-- No Content-ID match can start inside `A ++ CRLF` when the fresh header
follows the CRLF. -/
theorem no_cid_before_inserted {A B cid : Str} (hno : hasInfixCI A cidLit10 = false) :
    ∀ u v, A ++ '\r' :: ['\n'] = u ++ v → v ≠ [] →
      matchCidAt (v ++ (cidHdrTxt cid ++ B)) = none := by
  intro u v huv hv
  rcases List.append_eq_append_iff.mp huv with ⟨a2, hu, hb⟩ | ⟨c2, hA, hveq⟩
  · cases a2 with
    | nil =>
      simp only [List.nil_append] at hb
      rw [← hb]
      exact matchCid_none_of_head (by decide) _
    | cons d a3 =>
      simp only [List.cons_append, List.cons.injEq] at hb
      cases a3 with
      | nil =>
        simp only [List.nil_append] at hb
        rw [← hb.2]
        exact matchCid_none_of_head (by decide) _
      | cons e a4 =>
        simp only [List.cons_append, List.cons.injEq] at hb
        rcases hb.2 with ⟨_, hnil⟩
        rcases List.append_eq_nil.mp hnil.symm with ⟨_, rfl⟩
        exact absurd rfl hv
  · cases c2 with
    | nil =>
      simp only [List.nil_append] at hveq
      rw [hveq]
      exact matchCid_none_of_head (by decide) _
    | cons d c3 =>
      rw [hveq, List.append_assoc]
      apply no_cid_match_in_clean hno u (d :: c3) _ hA (by simp)
      intro z hz hlt w0 ws hw
      have hw0 : w0 = '\r' := by
        simp only [List.cons_append, List.cons.injEq] at hw
        exact hw.1.symm
      subst hw0
      exact cidLit_no_cr z ((List.drop_subset _ _) hz)

/- ----------------------------------------------------------------
   C3: the rewritten image part carries exactly one identifier header.
   ---------------------------------------------------------------- -/

/-- C3 counterexample.  An image part already carrying two identifier headers:
the rewrite replaces only the first, so the output carries two identifier
headers, not exactly one. -/
theorem c3_counterexample :
    classify "Content-Type: image\r\nContent-Location: a.png\r\nContent-ID: <x@y>\r\nContent-ID: <z@w>\r\n\r\nD".data = Kind.image ∧
    (scanFirst matchLocAt "Content-Type: image\r\nContent-Location: a.png\r\nContent-ID: <x@y>\r\nContent-ID: <z@w>\r\n\r\nD".data).isSome = true ∧
    cidVals (rewriteImagePart "abcd1234".data "a.png".data
        "Content-Type: image\r\nContent-Location: a.png\r\nContent-ID: <x@y>\r\nContent-ID: <z@w>\r\n\r\nD".data) =
      [mkCid "abcd1234".data "a.png".data, "z@w".data] := by
  refine ⟨by decide, by decide, by decide⟩

/-- C3 amended (proved).  For an image part that carries a location header and
at most one identifier header (formally: either the bytes contain no
case-insensitive occurrence of `content-id` at all, or the Content-ID pattern
matches once and the bytes before and after that match are free of
`content-id`), the rewritten part contains exactly one identifier header, and
its value is `sanitize(basename(location)) ++ "." ++ hex ++ "@mhtml.fixer"`
for the 8-character random hex draw — a value that never begins with a
hyphen. -/
theorem c3_unique_identifier_header (hex loc part lpre lmt lraw lrest : Str)
    (hhexlen : hex.length = 8) (hhex : ∀ c ∈ hex, isHexDigB c = true)
    (hloc : scanFirst matchLocAt part = some (lpre, lmt, lraw, lrest))
    (hone : hasInfixCI part cidLit10 = false ∨
      (∃ cpre cmt oldv crest, scanFirst matchCidAt part = some (cpre, cmt, oldv, crest) ∧
        hasInfixCI cpre cidLit10 = false ∧ hasInfixCI crest cidLit10 = false)) :
    cidVals (rewriteImagePart hex loc part) = [mkCid hex loc] ∧
      ¬ (mkCid hex loc).head? = some '-' := by
  have hgt : ∀ c ∈ mkCid hex loc, ¬(c = '>') := mkCid_no_gt hhex
  have hne : mkCid hex loc ≠ [] := mkCid_ne_nil hex loc
  refine ⟨?_, mkCid_head_not_hyphen hex loc⟩
  rcases hone with hno | ⟨cpre, cmt, oldv, crest, hcid, hnopre, hnorest⟩
  · -- insertion case: no identifier header anywhere in the part
    have hpart : part = lpre ++ lmt ++ lrest := scanFirst_decomp hloc
    have hcidnone : scanFirst matchCidAt part = none := scanCid_none_of_noCI hno
    have hrw : rewriteImagePart hex loc part =
        subOnce matchLocAt (fun mt _ => mt ++ '\r' :: '\n' :: cidHdrTxt (mkCid hex loc)) part := by
      unfold rewriteImagePart
      rw [hcidnone]
    rw [hrw, subOnce_of_scanFirst hloc]
    have hnoA : hasInfixCI (lpre ++ lmt) cidLit10 = false := by
      cases hA : hasInfixCI (lpre ++ lmt) cidLit10 with
      | false => rfl
      | true =>
        exfalso
        have := hasInfixCI_append_right hA lrest
        rw [← hpart] at this
        rw [this] at hno; cases hno
    have hnoB : hasInfixCI lrest cidLit10 = false := by
      cases hB : hasInfixCI lrest cidLit10 with
      | false => rfl
      | true =>
        exfalso
        have := hasInfixCI_append_left hB (lpre ++ lmt)
        rw [← hpart] at this
        rw [this] at hno; cases hno
    have hshape : lpre ++ (lmt ++ '\r' :: '\n' :: cidHdrTxt (mkCid hex loc)) ++ lrest =
        ((lpre ++ lmt) ++ '\r' :: ['\n']) ++ cidHdrTxt (mkCid hex loc) ++ lrest := by
      simp
    rw [hshape]
    apply @cidVals_single _ ((lpre ++ lmt) ++ '\r' :: ['\n'])
      (cidHdrTxt (mkCid hex loc)) (mkCid hex loc) lrest
    · apply scanFirst_exact
      · simp [cidHdrTxt]
      · intro u v huv hv
        rw [List.append_assoc]
        exact no_cid_before_inserted hnoA u v huv hv
      · exact matchCid_on_header hne hgt lrest
    · exact scanCid_none_of_noCI hnoB
  · -- replacement case: exactly one identifier header in the part
    have hrw : rewriteImagePart hex loc part =
        subOnce matchCidAt (fun _ _ => cidHdrTxt (mkCid hex loc)) part := by
      unfold rewriteImagePart
      rw [hcid]
    rw [hrw, subOnce_of_scanFirst hcid]
    apply @cidVals_single _ cpre (cidHdrTxt (mkCid hex loc))
      (mkCid hex loc) crest
    · apply scanFirst_exact
      · simp [cidHdrTxt]
      · intro u v huv hv
        rw [List.append_assoc]
        exact no_cid_before_header hnopre u v huv hv
      · exact matchCid_on_header hne hgt crest
    · exact scanCid_none_of_noCI hnorest

/-- Witness for the amended C3 on a concrete image part without a prior
identifier header. -/
theorem c3_witness :
    ("abcd1234".data.length = 8 ∧
      hasInfixCI "Content-Type: image\r\nContent-Location: p/q.png\r\n\r\nDATA".data cidLit10 =
        false) ∧
    cidVals (rewriteImagePart "abcd1234".data "p/q.png".data
        "Content-Type: image\r\nContent-Location: p/q.png\r\n\r\nDATA".data) =
      [mkCid "abcd1234".data "p/q.png".data] ∧
    ¬ (mkCid "abcd1234".data "p/q.png".data).head? = some '-' :=
  ⟨⟨by decide, by decide⟩,
    c3_unique_identifier_header "abcd1234".data "p/q.png".data
      "Content-Type: image\r\nContent-Location: p/q.png\r\n\r\nDATA".data
      "Content-Type: image\r\n".data "Content-Location: p/q.png".data
      "p/q.png".data "\r\n\r\nDATA".data
      (by decide) (by decide) (by decide) (Or.inl (by decide))⟩

/- ----------------------------------------------------------------
   Splitting a delimiter-joined string back into its pieces.
   ---------------------------------------------------------------- -/

theorem litPref_append_split {lit v w : Str} (h : litPref lit (v ++ w) = true) :
    (lit.length ≤ v.length ∧ litPref lit v = true) ∨
    (v.length < lit.length ∧ litPref (lit.drop v.length) w = true) := by
  induction lit generalizing v with
  | nil => left; simp [litPref]
  | cons l ls ih =>
    cases v with
    | nil =>
      right
      simpa [litPref] using h
    | cons c cs =>
      simp only [List.cons_append, litPref, Bool.and_eq_true] at h
      rcases ih (v := cs) h.2 with ⟨h1, h2⟩ | ⟨h1, h2⟩
      · left
        refine ⟨by simpa using Nat.succ_le_succ h1, ?_⟩
        simp only [litPref, Bool.and_eq_true]
        exact ⟨h.1, h2⟩
      · right
        exact ⟨by simpa using Nat.succ_lt_succ h1, by simpa using h2⟩

/-- With a clean pre-region and an overlap-free delimiter, no separator
occurrence can start before the explicit delimiter. -/
theorem sep_none_before {b q : Str} (hb : b ≠ []) (hov : overlapFree b)
    (hq : hasInfix q b = false) :
    ∀ u v R, q = u ++ v → v ≠ [] → sepM b (v ++ (b ++ R)) = none := by
  intro u v R huv hv
  unfold sepM
  rw [if_neg ?hno]
  case hno =>
    intro hcontra
    rcases litPref_append_split hcontra with ⟨h1, h2⟩ | ⟨h1, h2⟩
    · have : hasInfix q b = true := by
        rcases litPref_iff.mp h2 with ⟨t, rfl⟩
        exact hasInfix_iff.mpr ⟨u, t, by rw [huv, List.append_assoc]⟩
      rw [this] at hq; cases hq
    · rcases litPref_iff.mp h2 with ⟨t, ht⟩
      have hvpos : 0 < v.length := by
        cases v
        · exact absurd rfl hv
        · simp
      have hlen : (b.drop v.length).length = b.length - v.length := List.length_drop ..
      have htake : b.drop v.length = b.take (b.length - v.length) := by
        have h3 : (b.drop v.length ++ t).take (b.drop v.length).length =
            (b ++ R).take (b.drop v.length).length := by rw [ht]
        rw [List.take_left] at h3
        rw [List.take_append_of_le_length (by omega), hlen] at h3
        exact h3
      exact hov v.length h1 hvpos htake

theorem sep_hit {b : Str} (R : Str) : sepM b (b ++ R) = some (b.length, ()) := by
  unfold sepM
  rw [if_pos (litPref_iff.mpr ⟨R, rfl⟩)]

theorem split_none_of_noInfix {b s : Str} (hs : hasInfix s b = false) :
    scanFirst (sepM b) s = none := by
  cases hscan : scanFirst (sepM b) s with
  | none => rfl
  | some r =>
    exfalso
    obtain ⟨p, mt, a, rest⟩ := r
    have hd := scanFirst_decomp hscan
    have hhit := scanFirst_hit (m := sepM b) ?hle hscan
    case hle =>
      intro t len a0 hm
      unfold sepM at hm
      by_cases hl : litPref b t = true
      · rw [if_pos hl] at hm
        rw [Option.some.injEq, Prod.mk.injEq] at hm
        rw [← hm.1]
        exact litPref_iff.mp hl |>.elim fun w hw => by rw [hw]; simp
      · rw [if_neg hl] at hm; cases hm
    unfold sepM at hhit
    by_cases hl : litPref b (mt ++ rest) = true
    · rcases litPref_iff.mp hl with ⟨t, ht⟩
      have : hasInfix s b = true :=
        hasInfix_iff.mpr ⟨p, t, by rw [hd, List.append_assoc, ht, ← List.append_assoc]⟩
      rw [this] at hs; cases hs
    · rw [if_neg hl] at hhit; cases hhit

theorem splitF_none {b s : Str} (fuel : Nat) (h : scanFirst (sepM b) s = none) :
    splitOnSubF b fuel s = [s] := by
  cases fuel with
  | zero => rfl
  | succ f => rw [splitOnSubF, h]

theorem splitF_hit {b : Str} (hb : b ≠ []) (f : Nat) (s pre mt : Str) (a : Unit)
    (rest : Str) (hle : s.length ≤ f + 1)
    (hscan : scanFirst (sepM b) s = some (pre, mt, a, rest)) :
    rest.length ≤ f ∧ splitOnSubF b (f + 1) s = pre :: splitOnSubF b f rest := by
  have hd := scanFirst_decomp hscan
  have hhit := scanFirst_hit (m := sepM b) ?hle2 hscan
  case hle2 =>
    intro t len a0 hm
    unfold sepM at hm
    by_cases hl : litPref b t = true
    · rw [if_pos hl, Option.some.injEq, Prod.mk.injEq] at hm
      rw [← hm.1]
      rcases litPref_iff.mp hl with ⟨w, rfl⟩
      simp
    · rw [if_neg hl] at hm; cases hm
  have hmtlen : mt.length = b.length := by
    unfold sepM at hhit
    by_cases hl : litPref b (mt ++ rest) = true
    · rw [if_pos hl, Option.some.injEq, Prod.mk.injEq] at hhit
      exact hhit.1.symm
    · rw [if_neg hl] at hhit; cases hhit
  have hbpos : 0 < b.length := by
    cases b
    · exact absurd rfl hb
    · simp
  constructor
  · have := congrArg List.length hd
    simp only [List.length_append] at this
    omega
  · cases s with
    | nil => simp [scanFirst] at hscan
    | cons c cs =>
      rw [splitOnSubF, hscan]

/-- Joining boundary-free pieces with an overlap-free delimiter and splitting
again recovers exactly the pieces. -/
theorem split_join {b : Str} (hb : b ≠ []) (hov : overlapFree b) :
    ∀ (qs : List Str) (q : Str) (fuel : Nat),
      (q ++ (qs.map (fun p => b ++ p)).flatten).length ≤ fuel →
      hasInfix q b = false → (∀ p ∈ qs, hasInfix p b = false) →
      splitOnSubF b fuel (q ++ (qs.map (fun p => b ++ p)).flatten) = q :: qs := by
  intro qs
  induction qs with
  | nil =>
    intro q fuel hfuel hq _
    simp only [List.map_nil, List.flatten_nil, List.append_nil]
    exact splitF_none fuel (split_none_of_noInfix hq)
  | cons p ps ih =>
    intro q fuel hfuel hq hps
    have hshape : q ++ ((p :: ps).map (fun x => b ++ x)).flatten =
        q ++ b ++ (p ++ (ps.map (fun x => b ++ x)).flatten) := by
      simp
    rw [hshape] at hfuel ⊢
    have hscan : scanFirst (sepM b) (q ++ b ++ (p ++ (ps.map (fun x => b ++ x)).flatten)) =
        some (q, b, (), p ++ (ps.map (fun x => b ++ x)).flatten) := by
      apply scanFirst_exact hb
      · intro u v huv hv
        rw [List.append_assoc]
        exact sep_none_before hb hov hq u v _ huv hv
      · exact sep_hit _
    cases fuel with
    | zero =>
      exfalso
      have hbpos : 0 < b.length := by
        cases b
        · exact absurd rfl hb
        · simp
      simp only [List.length_append, Nat.le_zero] at hfuel
      omega
    | succ f =>
      obtain ⟨hf2, heq⟩ := splitF_hit hb f _ q b ()
        (p ++ (ps.map (fun x => b ++ x)).flatten) hfuel hscan
      rw [heq]
      have hrec := ih p f hf2 (hps p (List.mem_cons_self p ps))
        (fun x hx => hps x (List.mem_cons_of_mem p hx))
      rw [hrec]

/- ----------------------------------------------------------------
   C6: re-splitting the output archive.
   ---------------------------------------------------------------- -/

set_option maxRecDepth 40000 in
/-- C6 counterexample.  An archive (boundary token `__z`) whose image location
`a--??z.png` sanitises to `a--__z.png`: the inserted identifier header then
contains the boundary delimiter `--__z`, so the input splits into 4 pieces but
the output splits into 5 — the round-trip count is not preserved even though
no input part contains the delimiter. -/
theorem c6_counterexample :
    core (fun _ => "abcd1234".data)
        "boundary=\"__z\"--__z\r\nContent-Type: image\r\nContent-Location: a--??z.png\r\n\r\nIMG--__z\r\nContent-Type: text/html\r\n\r\n<p>hi</p>--__z--\r\n".data =
      .ok "boundary=\"__z\"--__z\r\nContent-Type: image\r\nContent-Location: a--??z.png\r\nContent-ID: <a--__z.png.abcd1234@mhtml.fixer>\r\n\r\nIMG--__z\r\nContent-Type: text/html\r\n\r\n<p>hi</p>--__z--\r\n".data ∧
    (splitOnSub "boundary=\"__z\"--__z\r\nContent-Type: image\r\nContent-Location: a--??z.png\r\n\r\nIMG--__z\r\nContent-Type: text/html\r\n\r\n<p>hi</p>--__z--\r\n".data "--__z".data).length = 4 ∧
    (splitOnSub "boundary=\"__z\"--__z\r\nContent-Type: image\r\nContent-Location: a--??z.png\r\nContent-ID: <a--__z.png.abcd1234@mhtml.fixer>\r\n\r\nIMG--__z\r\nContent-Type: text/html\r\n\r\n<p>hi</p>--__z--\r\n".data "--__z".data).length = 5 := by
  refine ⟨by decide, by decide, by decide⟩

/-- C6 amended (proved).  Splitting the reassembled archive on the boundary
yields exactly one piece per assembled part, in order, plus the global header
and the terminal marker — the same count and order as the input split —
provided the delimiter has no self-overlap and neither the header, nor any
rewritten part (with its possibly-prepended CRLF), nor the terminal marker
`--\r\n` contains the delimiter. -/
theorem c6_roundtrip_amended (b header : Str) (ps : List Str)
    (hb : b ≠ []) (hov : overlapFree b)
    (hh : hasInfix header b = false)
    (hps : ∀ p ∈ ps,
      hasInfix ((if litPref ('\r' :: ['\n']) p then [] else '\r' :: ['\n']) ++ p) b = false)
    (htail : hasInfix ('-' :: '-' :: '\r' :: ['\n']) b = false) :
    splitOnSub (assemble b header ps) b =
      header ::
        (ps.map (fun p => (if litPref ('\r' :: ['\n']) p then [] else '\r' :: ['\n']) ++ p)
          ++ ['-' :: '-' :: '\r' :: ['\n']]) ∧
    (splitOnSub (assemble b header ps) b).length = ps.length + 2 := by
  have hshape : assemble b header ps =
      header ++
        (((ps.map (fun p => (if litPref ('\r' :: ['\n']) p then [] else '\r' :: ['\n']) ++ p)
          ++ ['-' :: '-' :: '\r' :: ['\n']]).map (fun p => b ++ p)).flatten) := by
    unfold assemble
    simp only [List.map_append, List.flatten_append, List.map_map, Function.comp_def,
      List.map_cons, List.map_nil, List.flatten_cons, List.flatten_nil, List.append_nil,
      List.append_assoc]
  have hpieces : ∀ p ∈ (ps.map
      (fun p => (if litPref ('\r' :: ['\n']) p then [] else '\r' :: ['\n']) ++ p)
        ++ ['-' :: '-' :: '\r' :: ['\n']]), hasInfix p b = false := by
    intro p hp
    rcases List.mem_append.mp hp with hmap | hlast
    · rcases List.mem_map.mp hmap with ⟨p0, hp0, rfl⟩
      exact hps p0 hp0
    · rcases List.mem_singleton.mp hlast with rfl
      exact htail
  constructor
  · rw [hshape, splitOnSub]
    exact split_join hb hov _ header _ (Nat.le_refl _) hh hpieces
  · rw [hshape, splitOnSub]
    rw [split_join hb hov _ header _ (Nat.le_refl _) hh hpieces]
    simp

/-- Witness instantiating the amended C6 at a concrete assembly. -/
theorem c6_witness :
    (("--tok".data : Str) ≠ [] ∧ overlapFree "--tok".data ∧
      hasInfix "header".data "--tok".data = false) ∧
    splitOnSub (assemble "--tok".data "header".data ["\r\npart1".data, "part2".data])
        "--tok".data =
      "header".data ::
        (["\r\npart1".data, "\r\npart2".data] ++ ['-' :: '-' :: '\r' :: ['\n']]) := by
  refine ⟨⟨by decide, by decide, by decide⟩, ?_⟩
  have h := (c6_roundtrip_amended "--tok".data "header".data
    ["\r\npart1".data, "part2".data] (by decide) (by decide) (by decide)
    (by decide) (by decide)).1
  rw [h]
  rfl

/- ----------------------------------------------------------------
   C4: facts about the img-tag matcher.
   ---------------------------------------------------------------- -/

theorem ne_gt_of_ciEq {c d : Char} (h : ciEq c d = true) (hd : ¬ lcCh d = '>') :
    ¬ c = '>' := by
  rintro rfl
  simp only [ciEq, decide_eq_true_eq] at h
  apply hd
  rw [← h]
  decide

theorem ciEq_false_of {c a b : Char} (h : ciEq c a = true) (hab : lcCh a ≠ lcCh b) :
    ciEq c b = false := by
  simp only [ciEq, decide_eq_true_eq] at h
  simp only [ciEq, decide_eq_false_iff_not]
  rw [h]
  exact hab

theorem matchImgAt_some_shape {s : Str} {len : Nat} {a : Unit}
    (h : matchImgAt s = some (len, a)) :
    ∃ c1 c2 c3 int t, s = '<' :: c1 :: c2 :: c3 :: (int ++ '>' :: t) ∧
      ciEq c1 'i' = true ∧ ciEq c2 'm' = true ∧ ciEq c3 'g' = true ∧
      int ≠ [] ∧ (∀ c ∈ int, ¬ c = '>') ∧ len = 5 + int.length := by
  rw [matchImgAt.eq_def] at h
  split at h
  case _ c0 c1 c2 c3 rest =>
    by_cases hc : (c0 = '<' && ciEq c1 'i' && ciEq c2 'm' && ciEq c3 'g') = true
    case neg => rw [if_neg hc] at h; exact Option.noConfusion h
    rw [if_pos hc] at h
    by_cases hz : (rest.takeWhile (fun c => !(c = '>'))).length = 0
    case pos => rw [if_pos hz] at h; exact Option.noConfusion h
    rw [if_neg hz] at h
    cases hd : rest.drop (rest.takeWhile (fun c => !(c = '>'))).length with
    | nil => rw [hd] at h; exact Option.noConfusion h
    | cons d tl =>
      rw [hd] at h
      dsimp only at h
      by_cases hgt : d = '>'
      case neg => rw [if_neg hgt] at h; exact Option.noConfusion h
      rw [if_pos hgt] at h
      simp only [Option.some.injEq, Prod.mk.injEq] at h
      obtain ⟨u, hu⟩ := List.takeWhile_prefix (l := rest) (fun c => !(c = '>'))
      simp only [Bool.and_eq_true, decide_eq_true_eq] at hc
      obtain ⟨⟨⟨hc0, hci1⟩, hci2⟩, hci3⟩ := hc
      subst hc0
      subst hgt
      have h2 : (rest.takeWhile (fun c => !(c = '>')) ++ u).drop
          (rest.takeWhile (fun c => !(c = '>'))).length = u := List.drop_left _ _
      rw [hu] at h2
      have hdrop : u = '>' :: tl := h2.symm.trans hd
      refine ⟨c1, c2, c3, rest.takeWhile (fun c => !(c = '>')), tl, ?_, hci1, hci2, hci3,
        ?_, ?_, ?_⟩
      · have hre : rest.takeWhile (fun c => !(c = '>')) ++ '>' :: tl = rest := by
          rw [← hdrop]
          exact hu
        rw [hre]
      · intro hnil
        exact hz (by rw [hnil]; rfl)
      · intro c hcmem
        have := List.mem_takeWhile_imp hcmem
        simpa using this
      · exact h.1.symm
  case _ =>
    exact Option.noConfusion h

theorem matchImgAt_le : ∀ (t : Str) (len : Nat) (a : Unit),
    matchImgAt t = some (len, a) → len ≤ t.length := by
  intro t len a h
  obtain ⟨c1, c2, c3, int, u, hs, -, -, -, -, -, hlen⟩ := matchImgAt_some_shape h
  rw [hs, hlen]
  simp only [List.length_cons, List.length_append]
  omega

theorem drop_takeWhile_length (p : Char → Bool) (l : Str) :
    l.drop (l.takeWhile p).length = l.dropWhile p := by
  obtain ⟨u0, hu0⟩ := List.takeWhile_prefix (l := l) p
  have h1 := List.drop_left (l.takeWhile p) u0
  rw [hu0] at h1
  have h3 : l.dropWhile p = u0 :=
    List.append_cancel_left ((List.takeWhile_append_dropWhile p l).trans hu0.symm)
  rw [h3]
  exact h1

theorem dropWhile_gt {l : Str} (h : '>' ∈ l) :
    ∃ t, l.dropWhile (fun c => !(c = '>')) = '>' :: t := by
  induction l with
  | nil => cases h
  | cons c cs ih =>
    by_cases hc : c = '>'
    · subst hc
      exact ⟨cs, by simp [List.dropWhile]⟩
    · rw [List.dropWhile_cons_of_pos (by simpa using hc)]
      exact ih (by rcases List.mem_cons.mp h with rfl | hm; exact absurd rfl hc; exact hm)

theorem matchImgAt_some_intro (c1 c2 c3 : Char)
    (h1 : ciEq c1 'i' = true) (h2 : ciEq c2 'm' = true) (h3 : ciEq c3 'g' = true)
    (d : Char) (hd : ¬ d = '>') (t : Str) (hgt : '>' ∈ t) :
    ¬ matchImgAt ('<' :: c1 :: c2 :: c3 :: d :: t) = none := by
  rw [matchImgAt.eq_def]
  simp only
  rw [if_pos (by simp [h1, h2, h3])]
  have hrun : (d :: t).takeWhile (fun c => !(c = '>')) =
      d :: t.takeWhile (fun c => !(c = '>')) := by
    rw [List.takeWhile_cons_of_pos (by simpa using hd)]
  rw [hrun]
  rw [if_neg (by simp)]
  obtain ⟨u, hu⟩ := dropWhile_gt hgt
  have hcalc : (d :: t).drop (d :: t.takeWhile (fun c => !(c = '>'))).length = '>' :: u := by
    simp only [List.length_cons, List.drop_succ_cons]
    rw [drop_takeWhile_length]
    exact hu
  rw [hcalc]
  simp

theorem matchImgAt_selfclosed (c1 c2 c3 : Char)
    (h1 : ciEq c1 'i' = true) (h2 : ciEq c2 'm' = true) (h3 : ciEq c3 'g' = true)
    (w0 R : Str) (hw0 : ∀ c ∈ w0, ¬ c = '>') :
    matchImgAt (('<' :: c1 :: c2 :: c3 :: (w0 ++ ['/', '>'])) ++ R) =
      some (('<' :: c1 :: c2 :: c3 :: (w0 ++ ['/', '>'])).length, ()) := by
  have hshape : ('<' :: c1 :: c2 :: c3 :: (w0 ++ ['/', '>'])) ++ R =
      '<' :: c1 :: c2 :: c3 :: ((w0 ++ ['/']) ++ '>' :: R) := by simp
  rw [hshape, matchImgAt.eq_def]
  simp only
  rw [if_pos (by simp [h1, h2, h3])]
  have hrun : ((w0 ++ ['/']) ++ '>' :: R).takeWhile (fun c => !(c = '>')) = w0 ++ ['/'] := by
    apply takeWhile_append_cons
    · intro x hx
      rcases List.mem_append.mp hx with hxw | hxs
      · simpa using hw0 x hxw
      · rcases List.mem_singleton.mp hxs with rfl
        decide
    · decide
  rw [hrun]
  rw [if_neg (by simp)]
  rw [List.drop_left]
  dsimp only
  rw [if_pos rfl]
  have harith : 5 + (w0 ++ ['/']).length =
      ('<' :: c1 :: c2 :: c3 :: (w0 ++ ['/', '>'])).length := by
    simp only [List.length_append, List.length_cons, List.length_nil]
    omega
  rw [harith]

theorem matchImg_none_persist {v mt fmt rest r2 : Str}
    (hv : v ≠ []) (hmt : ∃ m2, mt = '<' :: m2) (hmtg : '>' ∈ mt)
    (hfmt : ∃ f2, fmt = '<' :: f2)
    (hfail : matchImgAt (v ++ (mt ++ rest)) = none) :
    matchImgAt (v ++ (fmt ++ r2)) = none := by
  obtain ⟨m2, rfl⟩ := hmt
  obtain ⟨f2, rfl⟩ := hfmt
  cases hm : matchImgAt (v ++ ('<' :: f2 ++ r2)) with
  | none => rfl
  | some r =>
    exfalso
    obtain ⟨len, a⟩ := r
    obtain ⟨a1, a2, a3, int2, t3, hsh, hc1, hc2, hc3, hint2, hig2, -⟩ :=
      matchImgAt_some_shape hm
    cases v with
    | nil => exact absurd rfl hv
    | cons x0 v1 =>
      cases v1 with
      | nil =>
        simp only [List.cons_append, List.nil_append, List.cons.injEq] at hsh
        obtain ⟨-, h1, -⟩ := hsh
        rw [← h1] at hc1
        exact absurd hc1 (by decide)
      | cons x1 v2 =>
        cases v2 with
        | nil =>
          simp only [List.cons_append, List.nil_append, List.cons.injEq] at hsh
          obtain ⟨-, -, h2, -⟩ := hsh
          rw [← h2] at hc2
          exact absurd hc2 (by decide)
        | cons x2 v3 =>
          cases v3 with
          | nil =>
            simp only [List.cons_append, List.nil_append, List.cons.injEq] at hsh
            obtain ⟨-, -, -, h3, -⟩ := hsh
            rw [← h3] at hc3
            exact absurd hc3 (by decide)
          | cons x3 v4 =>
            simp only [List.cons_append, List.cons.injEq] at hsh
            obtain ⟨hx0, hx1, hx2, hx3, hrest⟩ := hsh
            subst hx0
            rw [← hx1] at hc1
            rw [← hx2] at hc2
            rw [← hx3] at hc3
            cases v4 with
            | nil =>
              apply matchImgAt_some_intro x1 x2 x3 hc1 hc2 hc3 '<' (by decide)
                (m2 ++ rest) ?_ ?_
              · rcases List.mem_cons.mp hmtg with hcon | hmem
                · exact absurd hcon (by decide)
                · exact List.mem_append_left rest hmem
              · simpa using hfail
            | cons y v5 =>
              obtain ⟨i0, i2s, rfl⟩ := List.exists_cons_of_ne_nil hint2
              simp only [List.nil_append, List.cons_append, List.cons.injEq] at hrest
              obtain ⟨hy, -⟩ := hrest
              apply matchImgAt_some_intro x1 x2 x3 hc1 hc2 hc3 y ?_
                (v5 ++ ('<' :: m2 ++ rest)) ?_ ?_
              · rw [hy]
                exact hig2 i0 (List.mem_cons_self i0 i2s)
              · exact List.mem_append_right v5 (List.mem_append_left rest hmtg)
              · simpa using hfail

/- ----------------------------------------------------------------
   C4: shape of the termination-normalisation helpers.
   ---------------------------------------------------------------- -/

theorem selfCloseKeep_concat (A : Str) :
    ∃ w, (w = A ∨ A = w ++ ['/']) ∧ selfCloseKeep (A ++ ['>']) = w ++ ['/', '>'] := by
  cases hA : A.reverse with
  | nil =>
    have hAnil : A = [] := by simpa using congrArg List.reverse hA
    subst hAnil
    exact ⟨[], Or.inl rfl, by decide⟩
  | cons a t =>
    have hAeq : A = t.reverse ++ [a] := by
      have := congrArg List.reverse hA
      simpa using this
    by_cases ha : a = '/'
    · subst ha
      refine ⟨t.reverse, Or.inr hAeq, ?_⟩
      rw [hAeq]
      unfold selfCloseKeep
      rw [if_pos (by simp [litPref])]
      simp
    · refine ⟨A, Or.inl rfl, ?_⟩
      unfold selfCloseKeep
      rw [if_neg ?hn, if_pos ?hp]
      case hn =>
        simp only [List.reverse_append, List.reverse_cons, List.reverse_nil,
          List.nil_append, List.cons_append, hA, litPref, Bool.and_eq_true,
          decide_eq_true_eq]
        rintro ⟨-, h, -⟩
        exact ha h.symm
      case hp =>
        simp [List.reverse_append, litPref]
      rw [List.dropLast_concat]

theorem selfCloseApp_concat (A : Str) :
    ∃ w, (w = A ∨ A = w ++ ['/']) ∧ selfCloseApp (A ++ ['>']) = w ++ ['/', '>'] := by
  cases hA : A.reverse with
  | nil =>
    have hAnil : A = [] := by simpa using congrArg List.reverse hA
    subst hAnil
    exact ⟨[], Or.inl rfl, by decide⟩
  | cons a t =>
    have hAeq : A = t.reverse ++ [a] := by
      have := congrArg List.reverse hA
      simpa using this
    by_cases ha : a = '/'
    · subst ha
      refine ⟨t.reverse, Or.inr hAeq, ?_⟩
      rw [hAeq]
      unfold selfCloseApp
      rw [if_pos (by simp [litPref])]
      simp
    · refine ⟨A, Or.inl rfl, ?_⟩
      unfold selfCloseApp
      rw [if_neg ?hn, if_pos ?hp]
      case hn =>
        simp only [List.reverse_append, List.reverse_cons, List.reverse_nil,
          List.nil_append, List.cons_append, hA, litPref, Bool.and_eq_true,
          decide_eq_true_eq]
        rintro ⟨-, h, -⟩
        exact ha h.symm
      case hp =>
        simp [List.reverse_append, litPref]
      rw [List.dropLast_concat]

theorem head4_of_concat {c0 c1 c2 c3 : Char} {mid w : Str} (hmid : mid ≠ [])
    (h : c0 :: c1 :: c2 :: c3 :: mid = w ++ ['/']) :
    ∃ w0, w = c0 :: c1 :: c2 :: c3 :: w0 ∧ mid = w0 ++ ['/'] := by
  obtain ⟨m0, ms, rfl⟩ := List.exists_cons_of_ne_nil hmid
  have hd := congrArg List.dropLast h
  rw [List.dropLast_concat] at hd
  have hw : w = c0 :: c1 :: c2 :: c3 :: (m0 :: ms).dropLast := hd.symm
  have hmid2 : m0 :: ms = (m0 :: ms).dropLast ++ ['/'] := by
    have h2 := h
    rw [hw] at h2
    simpa using h2
  exact ⟨(m0 :: ms).dropLast, hw, hmid2⟩

theorem selfCloseKeep_head (c1 c2 c3 : Char) (mid : Str) (hmid : mid ≠ [])
    (hg : ∀ c ∈ mid, ¬ c = '>') :
    ∃ w0, (∀ c ∈ w0, ¬ c = '>') ∧
      selfCloseKeep (('<' :: c1 :: c2 :: c3 :: mid) ++ ['>']) =
        '<' :: c1 :: c2 :: c3 :: (w0 ++ ['/', '>']) := by
  obtain ⟨w, hw, heq⟩ := selfCloseKeep_concat ('<' :: c1 :: c2 :: c3 :: mid)
  rcases hw with rfl | hsp
  · exact ⟨mid, hg, by rw [heq]; simp⟩
  · obtain ⟨w0, rfl, hmid2⟩ := head4_of_concat hmid hsp
    refine ⟨w0, ?_, by rw [heq]; simp⟩
    intro c hc
    exact hg c (by rw [hmid2]; exact List.mem_append_left _ hc)

theorem selfCloseApp_head (c1 c2 c3 : Char) (mid : Str) (hmid : mid ≠ [])
    (hg : ∀ c ∈ mid, ¬ c = '>') :
    ∃ w0, (∀ c ∈ w0, ¬ c = '>') ∧
      selfCloseApp (('<' :: c1 :: c2 :: c3 :: mid) ++ ['>']) =
        '<' :: c1 :: c2 :: c3 :: (w0 ++ ['/', '>']) := by
  obtain ⟨w, hw, heq⟩ := selfCloseApp_concat ('<' :: c1 :: c2 :: c3 :: mid)
  rcases hw with rfl | hsp
  · exact ⟨mid, hg, by rw [heq]; simp⟩
  · obtain ⟨w0, rfl, hmid2⟩ := head4_of_concat hmid hsp
    refine ⟨w0, ?_, by rw [heq]; simp⟩
    intro c hc
    exact hg c (by rw [hmid2]; exact List.mem_append_left _ hc)

/- ----------------------------------------------------------------
   C4: facts about the src-attribute matcher.
   ---------------------------------------------------------------- -/

theorem take_takeWhile_len (p : Char → Bool) (l : Str) :
    l.take (l.takeWhile p).length = l.takeWhile p := by
  obtain ⟨u0, hu0⟩ := List.takeWhile_prefix (l := l) p
  have h1 := List.take_left (l.takeWhile p) u0
  rw [hu0] at h1
  exact h1

theorem srcClassB_no_gt {c : Char} (h : srcClassB c = true) : ¬ c = '>' := by
  rintro rfl
  exact absurd h (by decide)

theorem isWsB_no_gt {c : Char} (h : isWsB c = true) : ¬ c = '>' := by
  rintro rfl
  exact absurd h (by decide)

theorem qq_no_gt {q : Char} (h : (q = qDbl || q = qSgl) = true) : ¬ q = '>' := by
  rintro rfl
  exact absurd h (by decide)

theorem srcValPart_facts {t : Str} {len : Nat} {v : Str} (h : srcValPart t = some (len, v)) :
    0 < len ∧ len ≤ t.length ∧ ∀ c ∈ t.take len, ¬ c = '>' := by
  rw [srcValPart.eq_def] at h
  split at h
  case _ => exact Option.noConfusion h
  case _ q t2 =>
    by_cases hq : (q = qDbl || q = qSgl) = true
    · rw [if_pos hq] at h
      dsimp only at h
      by_cases hz : (t2.takeWhile srcClassB).length = 0
      · rw [if_pos hz] at h
        exact Option.noConfusion h
      rw [if_neg hz] at h
      cases hdr : t2.drop (t2.takeWhile srcClassB).length with
      | nil =>
        rw [hdr] at h
        exact Option.noConfusion h
      | cons c tl =>
        rw [hdr] at h
        dsimp only at h
        by_cases hc : c = q
        case neg => rw [if_neg hc] at h; exact Option.noConfusion h
        rw [if_pos hc] at h
        simp only [Option.some.injEq, Prod.mk.injEq] at h
        obtain ⟨hlen, -⟩ := h
        subst hc
        have hlt : (t2.takeWhile srcClassB).length < t2.length := by
          by_contra hge
          rw [List.drop_eq_nil_of_le (Nat.le_of_not_lt hge)] at hdr
          exact List.noConfusion hdr
        refine ⟨by omega, by rw [← hlen]; simp only [List.length_cons]; omega, ?_⟩
        intro x hx
        rw [← hlen] at hx
        rw [List.take_succ_cons] at hx
        rcases List.mem_cons.mp hx with rfl | hx2
        · exact qq_no_gt hq
        · have hsplit : t2.take ((t2.takeWhile srcClassB).length + 1) =
              t2.takeWhile srcClassB ++ [c] := by
            rw [List.take_add, take_takeWhile_len, hdr]
            rfl
          rw [hsplit] at hx2
          rcases List.mem_append.mp hx2 with hxw | hxq
          · exact srcClassB_no_gt (List.mem_takeWhile_imp hxw)
          · rcases List.mem_singleton.mp hxq with rfl
            exact qq_no_gt hq
    · rw [if_neg hq] at h
      dsimp only at h
      by_cases hz : ((q :: t2).takeWhile srcClassB).length = 0
      · rw [if_pos hz] at h
        exact Option.noConfusion h
      rw [if_neg hz] at h
      simp only [Option.some.injEq, Prod.mk.injEq] at h
      obtain ⟨hlen, -⟩ := h
      refine ⟨by omega, ?_, ?_⟩
      · rw [← hlen]
        exact (List.takeWhile_sublist _).length_le
      · intro x hx
        rw [← hlen, take_takeWhile_len] at hx
        exact srcClassB_no_gt (List.mem_takeWhile_imp hx)

theorem srcScanJ_facts (afterEq : Str) : ∀ (j len : Nat) (v : Str),
    (∀ c ∈ afterEq.take j, ¬ c = '>') → srcScanJ afterEq j = some (len, v) →
    len ≤ afterEq.length ∧ ∀ c ∈ afterEq.take len, ¬ c = '>' := by
  intro j
  induction j with
  | zero =>
    intro len v hws h
    rw [srcScanJ] at h
    obtain ⟨-, hle, hgt⟩ := srcValPart_facts h
    exact ⟨hle, hgt⟩
  | succ j ih =>
    intro len v hws h
    rw [srcScanJ] at h
    cases hsv : srcValPart (afterEq.drop (j + 1)) with
    | some la =>
      rw [hsv] at h
      obtain ⟨l2, v2⟩ := la
      dsimp only at h
      simp only [Option.some.injEq, Prod.mk.injEq] at h
      obtain ⟨hlen, -⟩ := h
      obtain ⟨-, hle2, hgt2⟩ := srcValPart_facts hsv
      constructor
      · rw [← hlen]
        have hne : afterEq.drop (j + 1) ≠ [] := by
          intro hnil
          rw [hnil] at hsv
          exact Option.noConfusion hsv
        have hjlt : j + 1 < afterEq.length := by
          by_contra hge
          exact hne (List.drop_eq_nil_of_le (Nat.le_of_not_lt hge))
        rw [List.length_drop] at hle2
        omega
      · intro x hx
        rw [← hlen, List.take_add] at hx
        rcases List.mem_append.mp hx with hxl | hxr
        · exact hws x hxl
        · exact hgt2 x hxr
    | none =>
      rw [hsv] at h
      apply ih len v ?_ h
      intro c hc
      have hsub : afterEq.take j = (afterEq.take (j + 1)).take j := by
        rw [List.take_take]
        congr 1
        omega
      exact hws c (List.take_subset _ _ (hsub ▸ hc))

theorem matchSrcAt_facts {t : Str} {len : Nat} {v : Str} (h : matchSrcAt t = some (len, v)) :
    4 ≤ len ∧ len ≤ t.length ∧ ∀ c ∈ t.take len, ¬ c = '>' := by
  rw [matchSrcAt.eq_def] at h
  split at h
  case _ c1 c2 c3 rest =>
    by_cases hci : (ciEq c1 's' && ciEq c2 'r' && ciEq c3 'c') = true
    case neg => rw [if_neg hci] at h; exact Option.noConfusion h
    rw [if_pos hci] at h
    dsimp only at h
    split at h
    case _ afterEq heq =>
      cases hsc : srcScanJ afterEq (afterEq.takeWhile isWsB).length with
      | none =>
        rw [hsc] at h
        exact Option.noConfusion h
      | some la =>
        rw [hsc] at h
        obtain ⟨l2, v2⟩ := la
        dsimp only [Option.map] at h
        simp only [Option.some.injEq, Prod.mk.injEq] at h
        obtain ⟨hlen, -⟩ := h
        obtain ⟨hle2, hgt2⟩ := srcScanJ_facts afterEq (afterEq.takeWhile isWsB).length l2 v2
          (by intro c hc
              rw [take_takeWhile_len] at hc
              exact isWsB_no_gt (List.mem_takeWhile_imp hc)) hsc
        have hw1le : (rest.takeWhile isWsB).length ≤ rest.length :=
          (List.takeWhile_sublist _).length_le
        have hld := congrArg List.length heq
        rw [List.length_drop] at hld
        simp only [List.length_cons] at hld
        simp only [Bool.and_eq_true] at hci
        obtain ⟨⟨hci1, hci2⟩, hci3⟩ := hci
        refine ⟨by omega, ?_, ?_⟩
        · rw [← hlen]
          simp only [List.length_cons]
          omega
        · intro x hx
          rw [← hlen] at hx
          have hsh : (c1 :: c2 :: c3 :: rest).take
              (4 + (rest.takeWhile isWsB).length + l2) =
              c1 :: c2 :: c3 :: rest.take (1 + (rest.takeWhile isWsB).length + l2) := by
            rw [show 4 + (rest.takeWhile isWsB).length + l2 =
              (1 + (rest.takeWhile isWsB).length + l2) + 1 + 1 + 1 from by omega]
            simp [List.take_succ_cons]
          rw [hsh] at hx
          rcases List.mem_cons.mp hx with rfl | hx1
          · exact ne_gt_of_ciEq hci1 (by decide)
          rcases List.mem_cons.mp hx1 with rfl | hx2
          · exact ne_gt_of_ciEq hci2 (by decide)
          rcases List.mem_cons.mp hx2 with rfl | hx3
          · exact ne_gt_of_ciEq hci3 (by decide)
          have hsh2 : rest.take (1 + (rest.takeWhile isWsB).length + l2) =
              rest.take (rest.takeWhile isWsB).length ++
                (rest.drop (rest.takeWhile isWsB).length).take (1 + l2) := by
            rw [show 1 + (rest.takeWhile isWsB).length + l2 =
              (rest.takeWhile isWsB).length + (1 + l2) from by omega]
            exact List.take_add _ _ _
          rw [hsh2] at hx3
          rcases List.mem_append.mp hx3 with hxw | hxe
          · rw [take_takeWhile_len] at hxw
            exact isWsB_no_gt (List.mem_takeWhile_imp hxw)
          · rw [heq] at hxe
            rw [show 1 + l2 = l2 + 1 from by omega, List.take_succ_cons] at hxe
            rcases List.mem_cons.mp hxe with rfl | hxa
            · decide
            · exact hgt2 x hxa
    case _ =>
      exact Option.noConfusion h
  case _ =>
    exact Option.noConfusion h

theorem matchSrcAt_le : ∀ (t : Str) (len : Nat) (v : Str),
    matchSrcAt t = some (len, v) → len ≤ t.length :=
  fun _ _ _ h => (matchSrcAt_facts h).2.1

/- ----------------------------------------------------------------
   C4: the callback rewrites a matched tag into self-closed form.
   ---------------------------------------------------------------- -/

theorem scanFirst_cons_decomp {α : Type} {m : Str → Option (Nat × α)} {c : Char} {cs : Str}
    {pre mt : Str} {a : α} {rest : Str} (hm : m (c :: cs) = none)
    (h : scanFirst m (c :: cs) = some (pre, mt, a, rest)) :
    ∃ pre2, pre = c :: pre2 ∧ scanFirst m cs = some (pre2, mt, a, rest) := by
  rw [scanFirst_cons_of_noMatchAt hm] at h
  cases hr : scanFirst m cs with
  | none => rw [hr] at h; exact Option.noConfusion h
  | some r =>
    obtain ⟨p2, m2, a2, r2⟩ := r
    rw [hr] at h
    dsimp only at h
    simp only [Option.some.injEq, Prod.mk.injEq] at h
    obtain ⟨h1, h2, h3, h4⟩ := h
    refine ⟨p2, h1.symm, ?_⟩
    rw [h2, h3, h4]

theorem matchSrcAt_none_of_head {c : Char} (hc : ciEq c 's' = false) :
    ∀ ts, matchSrcAt (c :: ts) = none := by
  intro ts
  cases ts with
  | nil => rfl
  | cons d ts2 =>
    cases ts2 with
    | nil => rfl
    | cons e ts3 =>
      rw [matchSrcAt.eq_def]
      dsimp only
      rw [if_neg (by simp [hc])]

theorem dictGet_mem {rm : List (Str × Str)} {k c : Str} (h : dictGet rm k = some c) :
    ∃ p ∈ rm, p.2 = c := by
  unfold dictGet at h
  cases hf : rm.find? (fun p => p.1 = k) with
  | none => rw [hf] at h; exact Option.noConfusion h
  | some p =>
    rw [hf] at h
    dsimp only [Option.map] at h
    simp only [Option.some.injEq] at h
    exact ⟨p, List.mem_of_find?_eq_some hf, h⟩

theorem resolveRef_mem {rm : List (Str × Str)} {key cid : Str}
    (h : resolveRef rm key = some cid) : ∃ p ∈ rm, p.2 = cid := by
  cases hd0 : dictGet rm key with
  | none =>
    cases hfind : rm.find? (fun p => basename p.1 = basename key) with
    | none =>
      simp [resolveRef, hd0, hfind] at h
    | some p =>
      refine ⟨p, List.mem_of_find?_eq_some hfind, ?_⟩
      simp [resolveRef, hd0, hfind] at h
      exact h
  | some c0 =>
    by_cases he : c0.isEmpty = true
    · cases hfind : rm.find? (fun p => basename p.1 = basename key) with
      | none =>
        obtain ⟨p0, hp0, hp0v⟩ := dictGet_mem hd0
        refine ⟨p0, hp0, ?_⟩
        simp [resolveRef, hd0, hfind, he] at h
        exact hp0v.trans h
      | some p =>
        refine ⟨p, List.mem_of_find?_eq_some hfind, ?_⟩
        simp [resolveRef, hd0, hfind, he] at h
        exact h
    · obtain ⟨p0, hp0, hp0v⟩ := dictGet_mem hd0
      refine ⟨p0, hp0, ?_⟩
      have he2 : c0.isEmpty = false := by rwa [Bool.not_eq_true] at he
      simp [resolveRef, hd0, he2] at h
      exact hp0v.trans h

theorem srcAttrTxt_no_gt {cid : Str} (hc : ∀ c ∈ cid, ¬ c = '>') :
    ∀ c ∈ srcAttrTxt cid, ¬ c = '>' := by
  have hsrc4 : ∀ x ∈ "src=".data, ¬ x = '>' := by decide
  have hcid4 : ∀ x ∈ "cid:".data, ¬ x = '>' := by decide
  intro c hcm
  unfold srcAttrTxt at hcm
  rcases List.mem_append.mp hcm with hsrc | htail
  · exact hsrc4 c hsrc
  · rcases List.mem_cons.mp htail with rfl | htail2
    · decide
    rcases List.mem_append.mp htail2 with hcidl | hq
    · rcases List.mem_append.mp hcidl with hlit | hcid
      · exact hcid4 c hlit
      · exact hc c hcid
    · rcases List.mem_singleton.mp hq with rfl
      decide

theorem fixImgTag_shape (rm : List (Str × Str)) (hrm : ∀ p ∈ rm, ∀ c ∈ p.2, ¬ c = '>')
    (c1 c2 c3 : Char) (int : Str)
    (h1 : ciEq c1 'i' = true) (h2 : ciEq c2 'm' = true) (h3 : ciEq c3 'g' = true)
    (hint : int ≠ []) (hig : ∀ c ∈ int, ¬ c = '>') :
    ∃ w0, (∀ c ∈ w0, ¬ c = '>') ∧
      fixImgTag rm ('<' :: c1 :: c2 :: c3 :: (int ++ ['>'])) =
        '<' :: c1 :: c2 :: c3 :: (w0 ++ ['/', '>']) := by
  have htag : '<' :: c1 :: c2 :: c3 :: (int ++ ['>']) =
      ('<' :: c1 :: c2 :: c3 :: int) ++ ['>'] := by simp
  unfold fixImgTag
  cases hscan : scanFirst matchSrcAt ('<' :: c1 :: c2 :: c3 :: (int ++ ['>'])) with
  | none =>
    dsimp only
    rw [htag]
    exact selfCloseKeep_head c1 c2 c3 int hint hig
  | some r =>
    obtain ⟨pre0, sm, v, rest0⟩ := r
    dsimp only
    cases hres : resolveRef rm
        (if lowerStr (v.take 4) = "cid:".data then v.drop 4 else v) with
    | none =>
      dsimp only
      rw [htag]
      exact selfCloseApp_head c1 c2 c3 int hint hig
    | some cid =>
      dsimp only
      by_cases hemp : cid.isEmpty = true
      · rw [if_pos hemp, htag]
        exact selfCloseApp_head c1 c2 c3 int hint hig
      · rw [if_neg hemp]
        have hcidgt : ∀ c ∈ cid, ¬ c = '>' := by
          obtain ⟨p0, hp0, hpv⟩ := resolveRef_mem hres
          intro c hcm
          apply hrm p0 hp0 c
          rw [hpv]
          exact hcm
        have hhit := scanFirst_hit matchSrcAt_le hscan
        obtain ⟨hsm4, -, hsmgt0⟩ := matchSrcAt_facts hhit
        have hsmgt : ∀ c ∈ sm, ¬ c = '>' := by
          have htk := List.take_left sm rest0
          rw [htk] at hsmgt0
          exact hsmgt0
        have m1 : matchSrcAt ('<' :: c1 :: c2 :: c3 :: (int ++ ['>'])) = none :=
          matchSrcAt_none_of_head (by decide) _
        obtain ⟨pA, hpA, hscan1⟩ := scanFirst_cons_decomp m1 hscan
        have m2 : matchSrcAt (c1 :: c2 :: c3 :: (int ++ ['>'])) = none :=
          matchSrcAt_none_of_head (ciEq_false_of h1 (by decide)) _
        obtain ⟨pB, hpB, hscan2⟩ := scanFirst_cons_decomp m2 hscan1
        have m3 : matchSrcAt (c2 :: c3 :: (int ++ ['>'])) = none :=
          matchSrcAt_none_of_head (ciEq_false_of h2 (by decide)) _
        obtain ⟨pC, hpC, hscan3⟩ := scanFirst_cons_decomp m3 hscan2
        have m4 : matchSrcAt (c3 :: (int ++ ['>'])) = none :=
          matchSrcAt_none_of_head (ciEq_false_of h3 (by decide)) _
        obtain ⟨pD, hpD, hscan4⟩ := scanFirst_cons_decomp m4 hscan3
        have hdec4 := scanFirst_decomp hscan4
        have hlen4 := congrArg List.length hdec4
        simp only [List.length_append, List.length_cons, List.length_nil] at hlen4
        have hple : pD.length ≤ int.length := by omega
        have hpfx : pD = int.take pD.length := by
          have h6 : (int ++ ['>']).take pD.length = pD := by
            rw [hdec4]
            have e1 : pD.length ≤ (pD ++ sm).length := by
              simp only [List.length_append]
              omega
            rw [List.take_append_of_le_length e1,
              List.take_append_of_le_length (Nat.le_refl _), List.take_length]
          rw [List.take_append_of_le_length hple] at h6
          exact h6.symm
        have hpDgt : ∀ c ∈ pD, ¬ c = '>' := by
          intro c hcm
          apply hig c
          rw [hpfx] at hcm
          exact List.take_subset _ _ hcm
        have hgtmem : ('>' : Char) ∈ pD ++ sm ++ rest0 := by
          rw [← hdec4]
          exact List.mem_append_right int (by simp)
        have hrestne : rest0 ≠ [] := by
          intro hnil
          rw [hnil] at hgtmem
          simp only [List.append_nil] at hgtmem
          rcases List.mem_append.mp hgtmem with hin | hin2
          · exact hpDgt '>' hin rfl
          · exact hsmgt '>' hin2 rfl
        have hrpos : 0 < rest0.length := List.length_pos.mpr hrestne
        have hk : pD.length + sm.length ≤ int.length := by omega
        have hrest0eq : rest0 = int.drop (pD.length + sm.length) ++ ['>'] := by
          have hd2 : (int ++ ['>']).drop (pD.length + sm.length) = rest0 := by
            rw [hdec4]
            rw [show pD.length + sm.length = (pD ++ sm).length from
              (List.length_append _ _).symm]
            exact List.drop_left _ _
          rw [← hd2, List.drop_append_of_le_length hk]
        have hr1gt : ∀ c ∈ int.drop (pD.length + sm.length), ¬ c = '>' := by
          intro c hcm
          exact hig c (List.drop_subset _ _ hcm)
        have hmidne : pD ++ srcAttrTxt cid ++ int.drop (pD.length + sm.length) ≠ [] := by
          simp [srcAttrTxt]
        have hmidgt : ∀ c ∈ pD ++ srcAttrTxt cid ++ int.drop (pD.length + sm.length),
            ¬ c = '>' := by
          intro c hcm
          rcases List.mem_append.mp hcm with hcl | hcr
          · rcases List.mem_append.mp hcl with hc1 | hc2
            · exact hpDgt c hc1
            · exact srcAttrTxt_no_gt hcidgt c hc2
          · exact hr1gt c hcr
        rw [subOnce_of_scanFirst hscan]
        have hpre0 : pre0 = '<' :: c1 :: c2 :: c3 :: pD := by
          rw [hpA, hpB, hpC, hpD]
        rw [hpre0, hrest0eq]
        have hfinal : ('<' :: c1 :: c2 :: c3 :: pD) ++
            (fun _ _ => srcAttrTxt cid) sm v ++
            (int.drop (pD.length + sm.length) ++ ['>']) =
            ('<' :: c1 :: c2 :: c3 ::
              (pD ++ srcAttrTxt cid ++ int.drop (pD.length + sm.length))) ++ ['>'] := by
          simp
        rw [hfinal]
        exact selfCloseApp_head c1 c2 c3 _ hmidne hmidgt

theorem imgMatchesF_selfclosed (rm : List (Str × Str))
    (hrm : ∀ p ∈ rm, ∀ c ∈ p.2, ¬ c = '>') :
    ∀ (fuel : Nat) (s : Str), s.length ≤ fuel → ∀ (fuel2 : Nat) (mt : Str),
      mt ∈ imgMatchesF fuel2 (subImgF (fixImgTag rm) fuel s) →
      ∃ w, mt = w ++ ['/', '>'] := by
  intro fuel
  induction fuel with
  | zero =>
    intro s hle fuel2 mt hmem
    have hs : s = [] := List.eq_nil_of_length_eq_zero (Nat.le_zero.mp hle)
    subst hs
    rw [subImgF] at hmem
    cases fuel2 with
    | zero => simp [imgMatchesF] at hmem
    | succ f2 => simp [imgMatchesF, scanFirst] at hmem
  | succ f ih =>
    intro s hle fuel2 mt hmem
    rw [subImgF] at hmem
    cases hscan : scanFirst matchImgAt s with
    | none =>
      rw [hscan] at hmem
      dsimp only at hmem
      cases fuel2 with
      | zero => simp [imgMatchesF] at hmem
      | succ f2 =>
        rw [imgMatchesF, hscan] at hmem
        simp at hmem
    | some r =>
      obtain ⟨pre, mt0, a0, rest⟩ := r
      cases a0
      rw [hscan] at hmem
      dsimp only at hmem
      have hhit := scanFirst_hit matchImgAt_le hscan
      obtain ⟨c1, c2, c3, int, t2, hsh, hc1, hc2, hc3, hint, hig, hlen⟩ :=
        matchImgAt_some_shape hhit
      have hmt0len : mt0.length = ('<' :: c1 :: c2 :: c3 :: (int ++ ['>'])).length := by
        rw [hlen]
        simp only [List.length_cons, List.length_append, List.length_nil]
        omega
      have hsh2 : mt0 ++ rest = ('<' :: c1 :: c2 :: c3 :: (int ++ ['>'])) ++ t2 := by
        rw [hsh]
        simp
      obtain ⟨hmt0, hrest⟩ := List.append_inj hsh2 hmt0len
      obtain ⟨w0, hw0g, hfix⟩ := fixImgTag_shape rm hrm c1 c2 c3 int hc1 hc2 hc3 hint hig
      rw [hmt0, hfix] at hmem
      have hout : scanFirst matchImgAt
          (pre ++ ('<' :: c1 :: c2 :: c3 :: (w0 ++ ['/', '>'])) ++
            subImgF (fixImgTag rm) f rest) =
          some (pre, '<' :: c1 :: c2 :: c3 :: (w0 ++ ['/', '>']), (),
            subImgF (fixImgTag rm) f rest) := by
        apply scanFirst_exact (by simp)
        · intro u v huv hv
          have hinput : matchImgAt (v ++ (mt0 ++ rest)) = none := by
            apply scanFirst_leftmost hscan u (v ++ (mt0 ++ rest)) ?_ ?_
            · rw [huv]
              simp [List.append_assoc]
            · rw [huv]
              have hvp : 0 < v.length := List.length_pos.mpr hv
              simp only [List.length_append]
              omega
          rw [List.append_assoc]
          exact matchImg_none_persist hv ⟨_, hmt0⟩ (by rw [hmt0]; simp) ⟨_, rfl⟩ hinput
        · exact matchImgAt_selfclosed c1 c2 c3 hc1 hc2 hc3 w0 _ hw0g
      cases fuel2 with
      | zero => simp [imgMatchesF] at hmem
      | succ f2 =>
        rw [imgMatchesF, hout] at hmem
        dsimp only at hmem
        rcases List.mem_cons.mp hmem with rfl | hmem2
        · exact ⟨'<' :: c1 :: c2 :: c3 :: w0, by simp⟩
        · have hrest_le : rest.length ≤ f := by
            have hd := scanFirst_decomp hscan
            have hl2 := congrArg List.length hd
            simp only [List.length_append] at hl2
            have hmt0pos : 0 < mt0.length := by
              rw [hmt0len]
              simp
            omega
          exact ih rest hrest_le f2 mt hmem2

/-- C4 (proved).  After the global rewrite of the markup body, every substring
of the REWRITTEN body that the image-tag pattern matches ends with the
self-closing marker `/>`, whether or not the tag has a src attribute and
whether or not its reference resolved — provided every value of the reference
map is free of the byte `>` (which every generated identifier is). -/
theorem c4_rewritten_img_tags_selfclosed (rm : List (Str × Str)) (body : Str)
    (hrm : ∀ p ∈ rm, ∀ c ∈ p.2, ¬ c = '>') :
    ∀ mt ∈ imgMatches (subImg (fixImgTag rm) body), ∃ w, mt = w ++ ['/', '>'] := by
  intro mt hmem
  exact imgMatchesF_selfclosed rm hrm body.length body (Nat.le_refl _) _ mt hmem

/-- Witness for C4 at a concrete map and body: one resolved tag, one tag
without src; both come out self-closed. -/
theorem c4_witness :
    ((∀ p ∈ [("a.png".data, "newcid".data)], ∀ c ∈ p.2, ¬ c = '>') ∧
      imgMatches (subImg (fixImgTag [("a.png".data, "newcid".data)])
          "<p><img src=a.png><img x></p>".data) =
        ["<img src=\"cid:newcid\"/>".data, "<img x/>".data]) ∧
    ∀ mt ∈ imgMatches (subImg (fixImgTag [("a.png".data, "newcid".data)])
        "<p><img src=a.png><img x></p>".data), ∃ w, mt = w ++ ['/', '>'] :=
  ⟨⟨by decide, by decide⟩, c4_rewritten_img_tags_selfclosed _ _ (by decide)⟩

/- ----------------------------------------------------------------
   C7: the quoted-printable round trip.
   ---------------------------------------------------------------- -/

set_option maxRecDepth 40000 in
/-- C7 counterexample.  A rewritten markup body with mixed line endings (the
global img substitution leaves bodies without img tags unchanged, so this is a
reachable rewritten body): `b2a_qp` normalises every newline to the flavour of
the FIRST one, so decoding the re-encoded body does not restore the original
bytes. -/
theorem c7_counterexample :
    subImg (fixImgTag []) "a\nb\r\nc".data = "a\nb\r\nc".data ∧
    decQP (encQP "a\nb\r\nc".data) = "a\nb\nc".data ∧
    ¬ decQP (encQP "a\nb\r\nc".data) = "a\nb\r\nc".data := by
  refine ⟨by decide, by decide, by decide⟩

theorem hexDig_props (n : Nat) : isHexDigB (hexDig n) = true ∧ ¬ hexDig n = '\n' ∧
    ¬ hexDig n = '\r' ∧ ¬ hexDig n = '=' := by
  by_cases h : n < 16
  · have hall : ∀ m, m < 16 → isHexDigB (hexDig m) = true ∧ ¬ hexDig m = '\n' ∧
        ¬ hexDig m = '\r' ∧ ¬ hexDig m = '=' := by decide
    exact hall n h
  · unfold hexDig
    rw [List.getD_eq_default]
    · decide
    · have h16 : ("0123456789ABCDEF".data).length = 16 := by decide
      rw [h16]
      omega

theorem hexVal_hexDig : ∀ n, n < 16 → hexVal (hexDig n) = n := by decide

theorem decQP_soft_lf (r : Str) : decQPGo false ('=' :: '\n' :: r) = decQPGo false r := by
  rw [decQPGo.eq_def]
  split
  case h_1 _x _y heq => exact absurd heq (by simp)
  case h_2 _x _y r2 hb2 heq => exact absurd hb2 (by simp)
  case h_3 _x _y hd r2 hne hb2 heq => exact absurd hb2 (by simp)
  case h_4 _x _y rest2 _hb heq =>
    have h5 : rest2 = '\n' :: r := by
      have := heq.symm
      simpa using this
    subst h5
    simp [decQPGo]
  case h_5 _x _y cc rest2 hne _hb heq =>
    have h6 : cc = '=' ∧ rest2 = '\n' :: r := by
      have := heq.symm
      simpa using this
    exact absurd h6.1 hne

theorem decQP_soft_crlf (r : Str) :
    decQPGo false ('=' :: '\r' :: '\n' :: r) = decQPGo false r := by
  rw [decQPGo.eq_def]
  split
  case h_1 _x _y heq => exact absurd heq (by simp)
  case h_2 _x _y r2 hb2 heq => exact absurd hb2 (by simp)
  case h_3 _x _y hd r2 hne hb2 heq => exact absurd hb2 (by simp)
  case h_4 _x _y rest2 _hb heq =>
    have h5 : rest2 = '\r' :: '\n' :: r := by
      have := heq.symm
      simpa using this
    subst h5
    simp [decQPGo]
  case h_5 _x _y cc rest2 hne _hb heq =>
    have h6 : cc = '=' ∧ rest2 = '\r' :: '\n' :: r := by
      have := heq.symm
      simpa using this
    exact absurd h6.1 hne

theorem decQP_lit {c : Char} (hc : ¬ c = '=') (r : Str) :
    decQPGo false (c :: r) = c :: decQPGo false r := by
  rw [decQPGo.eq_def]
  split <;> simp_all

theorem decQP_qhex {c : Char} (hb : c.toNat < 256) (r : Str) :
    decQPGo false (qhex c ++ r) = c :: decQPGo false r := by
  obtain ⟨hx1, hn1, hr1, he1⟩ := hexDig_props (c.toNat / 16)
  obtain ⟨hx2, hn2, hr2, he2⟩ := hexDig_props (c.toNat % 16)
  have hdiv : c.toNat / 16 < 16 := by omega
  have hmod : c.toNat % 16 < 16 := by omega
  have hkey : Char.ofNat (16 * hexVal (hexDig (c.toNat / 16)) +
      hexVal (hexDig (c.toNat % 16))) = c := by
    rw [hexVal_hexDig _ hdiv, hexVal_hexDig _ hmod,
      show 16 * (c.toNat / 16) + c.toNat % 16 = c.toNat from by omega,
      Char.ofNat_toNat]
  unfold qhex
  rw [decQPGo.eq_def]
  split
  case h_1 _x _y heq => exact absurd heq (by simp)
  case h_2 _x _y r2 hb2 heq => exact absurd hb2 (by simp)
  case h_3 _x _y hd r2 hne hb2 heq => exact absurd hb2 (by simp)
  case h_4 _x _y rest2 _hb heq =>
    have h5 : rest2 = hexDig (c.toNat / 16) :: hexDig (c.toNat % 16) :: r := by
      have := heq.symm
      simpa using this
    subst h5
    split <;> simp_all [hkey]
  case h_5 _x _y cc rest2 hne _hb heq =>
    have h6 : cc = '=' ∧ rest2 = hexDig (c.toNat / 16) :: hexDig (c.toNat % 16) :: r := by
      have := heq.symm
      simpa using this
    exact absurd h6.1 hne

theorem not_eq_of_not_quotable {c : Char} {ll : Nat} {nxt : Option Char}
    (h : ¬ quotable c ll nxt = true) : ¬ c = '=' := by
  intro hc
  subst hc
  apply h
  simp [quotable]

theorem detectCrlf_noCr : ∀ (n : Nat) (x : Str), x.length ≤ n →
    (∀ c ∈ x, ¬ c = '\r') → detectCrlf x = false := by
  intro n
  induction n with
  | zero =>
    intro x hl _
    have hx : x = [] := List.eq_nil_of_length_eq_zero (Nat.le_zero.mp hl)
    subst hx
    rfl
  | succ n ih =>
    intro x hl hno
    cases x with
    | nil => rfl
    | cons c1 t =>
      cases t with
      | nil => simp [detectCrlf]
      | cons c2 t2 =>
        rw [detectCrlf]
        by_cases h1 : c1 = '\n'
        · rw [if_pos h1]
        · rw [if_neg h1]
          by_cases h2 : c2 = '\n'
          · rw [if_pos h2]
            simp only [decide_eq_false_iff_not]
            exact hno c1 (List.mem_cons_self c1 (c2 :: t2))
          · rw [if_neg h2]
            apply ih (c2 :: t2) ?_ (fun c hc => hno c (List.mem_cons_of_mem c1 hc))
            simp only [List.length_cons] at hl ⊢
            omega

theorem crlfOnly_crlf (cs : Str) : crlfOnly ('\r' :: '\n' :: cs) = crlfOnly cs := by
  rw [crlfOnly.eq_def]
  dsimp only
  norm_num

theorem crlfOnly_cr_not_lf {c2 : Char} (h2 : ¬ c2 = '\n') (t2 : Str) :
    crlfOnly ('\r' :: c2 :: t2) = false := by
  rw [crlfOnly.eq_def]
  simp [h2]

theorem crlfOnly_lf (t : Str) : crlfOnly ('\n' :: t) = false := by
  rw [crlfOnly.eq_def]
  simp

theorem crlfOnly_other {c : Char} (h1 : ¬ c = '\r') (h2 : ¬ c = '\n') (t : Str) :
    crlfOnly (c :: t) = crlfOnly t := by
  rw [crlfOnly.eq_def]
  simp [h1, h2]

theorem detectCrlf_crlfOnly : ∀ (n : Nat) (x : Str), x.length ≤ n → crlfOnly x = true →
    detectCrlf x = true ∨ (∀ c ∈ x, ¬ c = '\r') := by
  intro n
  induction n with
  | zero =>
    intro x hl _
    have hx : x = [] := List.eq_nil_of_length_eq_zero (Nat.le_zero.mp hl)
    subst hx
    right
    simp
  | succ n ih =>
    intro x hl hco
    cases x with
    | nil =>
      right
      simp
    | cons c1 t =>
      cases t with
      | nil =>
        right
        intro c hc hceq
        rcases List.mem_singleton.mp hc with rfl
        subst hceq
        exact absurd hco (by decide)
      | cons c2 t2 =>
        by_cases h1 : c1 = '\r'
        · subst h1
          by_cases h2 : c2 = '\n'
          · subst h2
            left
            simp [detectCrlf]
          · rw [crlfOnly_cr_not_lf h2] at hco
            exact Bool.noConfusion hco
        · by_cases h1b : c1 = '\n'
          · subst h1b
            rw [crlfOnly_lf] at hco
            exact Bool.noConfusion hco
          · have hco2 : crlfOnly (c2 :: t2) = true := by
              rw [crlfOnly_other h1 h1b] at hco
              exact hco
            by_cases h2 : c2 = '\n'
            · subst h2
              rw [crlfOnly_lf] at hco2
              exact Bool.noConfusion hco2
            · have hdet : detectCrlf (c1 :: c2 :: t2) = detectCrlf (c2 :: t2) := by
                rw [detectCrlf, if_neg h1b, if_neg h2]
              have hlt : (c2 :: t2).length ≤ n := by
                simp only [List.length_cons] at hl ⊢
                omega
              rcases ih (c2 :: t2) hlt hco2 with hT | hA
              · left
                rw [hdet]
                exact hT
              · right
                intro c hc
                rcases List.mem_cons.mp hc with rfl | hc2
                · exact h1
                · exact hA c hc2

theorem encQPGo_nil (crlf : Bool) (n ll : Nat) : encQPGo crlf n ll [] = [] := by
  cases n <;> rfl

theorem decenc_noCr : ∀ (fuel : Nat) (x : Str), x.length ≤ fuel →
    (∀ c ∈ x, c.toNat < 256) → (∀ c ∈ x, ¬ c = '\r') →
    ∀ ll, decQPGo false (encQPGo false fuel ll x) = x := by
  intro fuel
  induction fuel with
  | zero =>
    intro x hl _ _ ll
    have hx : x = [] := List.eq_nil_of_length_eq_zero (Nat.le_zero.mp hl)
    subst hx
    rfl
  | succ n ih =>
    intro x hl hb hr ll
    cases x with
    | nil => rfl
    | cons c cs =>
      have hcb : c.toNat < 256 := hb c (List.mem_cons_self c cs)
      have hcsb : ∀ z ∈ cs, z.toNat < 256 := fun z hz => hb z (List.mem_cons_of_mem c hz)
      have hcsr : ∀ z ∈ cs, ¬ z = '\r' := fun z hz => hr z (List.mem_cons_of_mem c hz)
      have hlcs : cs.length ≤ n := by
        simp only [List.length_cons] at hl
        omega
      rw [encQPGo]
      by_cases hq : quotable c ll cs.head? = true
      · rw [if_pos hq]
        by_cases h76 : 76 ≤ ll + 3
        · rw [if_pos h76, show softBrk false = ['=', '\n'] from rfl, List.append_assoc]
          simp only [List.cons_append, List.nil_append]
          rw [decQP_soft_lf, decQP_qhex hcb, ih cs hlcs hcsb hcsr 3]
        · rw [if_neg h76, decQP_qhex hcb, ih cs hlcs hcsb hcsr (ll + 3)]
      · rw [if_neg hq]
        have hce : ¬ c = '=' := not_eq_of_not_quotable hq
        by_cases hnl : c = '\n'
        · rw [if_pos hnl]
          subst hnl
          rw [show nlTok false = ['\n'] from rfl]
          simp only [List.cons_append, List.nil_append]
          rw [decQP_lit (by decide), ih cs hlcs hcsb hcsr 0]
        · rw [if_neg hnl]
          cases cs with
          | nil =>
            rw [if_neg (by simp), if_neg (by simp), if_neg (by simp)]
            rw [encQPGo_nil, decQP_lit hce]
            rfl
          | cons c2 cs2 =>
            have hc2r : ¬ c2 = '\r' := hcsr c2 (List.mem_cons_self c2 cs2)
            by_cases h2 : c2 = '\n'
            · subst h2
              rw [if_pos (show (('\n' : Char) :: cs2).head? = some '\n' from rfl)]
              have hcr : ¬ c = '\r' := hr c (List.mem_cons_self _ _)
              rw [if_neg hcr]
              have hcs2b : ∀ z ∈ cs2, z.toNat < 256 :=
                fun z hz => hcsb z (List.mem_cons_of_mem _ hz)
              have hcs2r : ∀ z ∈ cs2, ¬ z = '\r' :=
                fun z hz => hcsr z (List.mem_cons_of_mem _ hz)
              have hlcs2 : cs2.length ≤ n := by
                simp only [List.length_cons] at hlcs
                omega
              by_cases hsp : (c = ' ' || c = '\t') = true
              · rw [if_pos hsp, show (('\n' : Char) :: cs2).drop 1 = cs2 from rfl,
                  List.append_assoc, decQP_qhex hcb, show nlTok false = ['\n'] from rfl]
                simp only [List.cons_append, List.nil_append]
                rw [decQP_lit (by decide), ih cs2 hlcs2 hcs2b hcs2r 0]
              · rw [if_neg hsp, decQP_lit hce, ih ('\n' :: cs2) hlcs hcsb hcsr (ll + 1)]
            · rw [if_neg (by simp [h2]), if_neg (by simp [hc2r])]
              by_cases h76b : 76 ≤ ll + 1
              · rw [if_pos (by simp [h76b]), show softBrk false = ['=', '\n'] from rfl]
                simp only [List.cons_append, List.nil_append]
                rw [decQP_soft_lf, decQP_lit hce, ih (c2 :: cs2) hlcs hcsb hcsr 1]
              · rw [if_neg (by simp [h76b]), decQP_lit hce,
                  ih (c2 :: cs2) hlcs hcsb hcsr (ll + 1)]

theorem quotable_cr (ll : Nat) (nxt : Option Char) : quotable '\r' ll nxt = false := by
  simp [quotable]

theorem quotable_lf (ll : Nat) (nxt : Option Char) : quotable '\n' ll nxt = false := by
  simp [quotable]

theorem decenc_crlf : ∀ (fuel : Nat) (x : Str), x.length ≤ fuel →
    (∀ c ∈ x, c.toNat < 256) → crlfOnly x = true →
    ∀ ll, decQPGo false (encQPGo true fuel ll x) = x := by
  intro fuel
  induction fuel with
  | zero =>
    intro x hl _ _ ll
    have hx : x = [] := List.eq_nil_of_length_eq_zero (Nat.le_zero.mp hl)
    subst hx
    rfl
  | succ n ih =>
    intro x hl hb hco ll
    cases x with
    | nil => rfl
    | cons c cs =>
      have hcb : c.toNat < 256 := hb c (List.mem_cons_self c cs)
      have hcsb : ∀ z ∈ cs, z.toNat < 256 := fun z hz => hb z (List.mem_cons_of_mem c hz)
      have hlcs : cs.length ≤ n := by
        simp only [List.length_cons] at hl
        omega
      rw [encQPGo]
      by_cases hq : quotable c ll cs.head? = true
      · have hcnr : ¬ c = '\r' := by
          intro hc
          rw [hc, quotable_cr] at hq
          exact Bool.noConfusion hq
        have hcnn : ¬ c = '\n' := by
          intro hc
          rw [hc, quotable_lf] at hq
          exact Bool.noConfusion hq
        have hco2 : crlfOnly cs = true := by
          rw [crlfOnly_other hcnr hcnn] at hco
          exact hco
        rw [if_pos hq]
        by_cases h76 : 76 ≤ ll + 3
        · rw [if_pos h76, show softBrk true = ['=', '\r', '\n'] from rfl, List.append_assoc]
          simp only [List.cons_append, List.nil_append]
          rw [decQP_soft_crlf, decQP_qhex hcb, ih cs hlcs hcsb hco2 3]
        · rw [if_neg h76, decQP_qhex hcb, ih cs hlcs hcsb hco2 (ll + 3)]
      · rw [if_neg hq]
        have hce : ¬ c = '=' := not_eq_of_not_quotable hq
        by_cases hnl : c = '\n'
        · exfalso
          subst hnl
          rw [crlfOnly_lf] at hco
          exact Bool.noConfusion hco
        · rw [if_neg hnl]
          by_cases hcr : c = '\r'
          · subst hcr
            cases cs with
            | nil => exact absurd hco (by decide)
            | cons c2 cs2 =>
              by_cases h2 : c2 = '\n'
              · subst h2
                have hco2 : crlfOnly cs2 = true := by
                  rw [crlfOnly_crlf] at hco
                  exact hco
                have hcs2b : ∀ z ∈ cs2, z.toNat < 256 :=
                  fun z hz => hcsb z (List.mem_cons_of_mem _ hz)
                have hlcs2 : cs2.length ≤ n := by
                  simp only [List.length_cons] at hlcs
                  omega
                rw [if_pos (show (('\n' : Char) :: cs2).head? = some '\n' from rfl)]
                rw [if_pos (show ('\r' : Char) = '\r' from rfl)]
                rw [show nlTok true = ['\r', '\n'] from rfl,
                  show (('\n' : Char) :: cs2).drop 1 = cs2 from rfl]
                simp only [List.cons_append, List.nil_append]
                rw [decQP_lit (by decide), decQP_lit (by decide),
                  ih cs2 hlcs2 hcs2b hco2 0]
              · exfalso
                rw [crlfOnly_cr_not_lf h2] at hco
                exact Bool.noConfusion hco
          · have hco2 : crlfOnly cs = true := by
              rw [crlfOnly_other hcr hnl] at hco
              exact hco
            cases cs with
            | nil =>
              rw [if_neg (by simp), if_neg (by simp), if_neg (by simp)]
              rw [encQPGo_nil, decQP_lit hce]
              rfl
            | cons c2 cs2 =>
              by_cases h2 : c2 = '\n'
              · exfalso
                subst h2
                rw [crlfOnly_lf] at hco2
                exact Bool.noConfusion hco2
              · by_cases h2r : c2 = '\r'
                · subst h2r
                  cases cs2 with
                  | nil => exact absurd hco2 (by decide)
                  | cons c3 cs3 =>
                    by_cases h3 : c3 = '\n'
                    · subst h3
                      have hco3 : crlfOnly cs3 = true := by
                        rw [crlfOnly_crlf] at hco2
                        exact hco2
                      have hcs3b : ∀ z ∈ cs3, z.toNat < 256 := fun z hz =>
                        hcsb z (List.mem_cons_of_mem _ (List.mem_cons_of_mem _ hz))
                      have hlcs3 : cs3.length ≤ n := by
                        simp only [List.length_cons] at hlcs
                        omega
                      rw [if_neg (by simp)]
                      rw [if_pos (by simp)]
                      by_cases hsp : (c = ' ' || c = '\t') = true
                      · rw [if_pos hsp,
                          show (('\r' : Char) :: '\n' :: cs3).drop 2 = cs3 from rfl,
                          show nlTok true = ['\r', '\n'] from rfl]
                        by_cases h76b : 76 ≤ ll + 1
                        · rw [if_pos h76b, show softBrk true = ['=', '\r', '\n'] from rfl]
                          simp only [List.append_assoc, List.cons_append, List.nil_append]
                          rw [decQP_soft_crlf, decQP_qhex hcb, decQP_lit (by decide),
                            decQP_lit (by decide), ih cs3 hlcs3 hcs3b hco3 0]
                        · rw [if_neg h76b]
                          simp only [List.append_assoc, List.cons_append, List.nil_append]
                          rw [decQP_qhex hcb, decQP_lit (by decide),
                            decQP_lit (by decide), ih cs3 hlcs3 hcs3b hco3 0]
                      · rw [if_neg hsp]
                        by_cases h76b : 76 ≤ ll + 1
                        · rw [if_pos h76b, show softBrk true = ['=', '\r', '\n'] from rfl]
                          simp only [List.cons_append, List.nil_append]
                          rw [decQP_soft_crlf, decQP_lit hce,
                            ih ('\r' :: '\n' :: cs3) hlcs hcsb hco2 1]
                        · rw [if_neg h76b, decQP_lit hce,
                            ih ('\r' :: '\n' :: cs3) hlcs hcsb hco2 (ll + 1)]
                    · exfalso
                      rw [crlfOnly_cr_not_lf h3] at hco2
                      exact Bool.noConfusion hco2
                · rw [if_neg (by simp [h2]), if_neg (by simp [h2r])]
                  by_cases h76b : 76 ≤ ll + 1
                  · rw [if_pos (by simp [h76b]), show softBrk true = ['=', '\r', '\n'] from rfl]
                    simp only [List.cons_append, List.nil_append]
                    rw [decQP_soft_crlf, decQP_lit hce, ih (c2 :: cs2) hlcs hcsb hco2 1]
                  · rw [if_neg (by simp [h76b]), decQP_lit hce,
                      ih (c2 :: cs2) hlcs hcsb hco2 (ll + 1)]

/-- C7 amended (proved).  Decoding the re-encoded rewritten body restores it
exactly, PROVIDED the body consists of bytes (each below 256) and its line
endings are uniform: either it contains no `\r` at all, or every newline is a
`\r\n` pair.  With mixed endings the round trip fails (`c7_counterexample`):
`b2a_qp` rewrites every newline to the flavour of the first one. -/
theorem c7_roundtrip_amended (x : Str) (hbyte : ∀ c ∈ x, c.toNat < 256)
    (huni : (∀ c ∈ x, ¬ c = '\r') ∨ crlfOnly x = true) :
    decQP (encQP x) = x := by
  unfold decQP encQP
  rcases huni with hA | hB
  · rw [detectCrlf_noCr x.length x (Nat.le_refl _) hA]
    exact decenc_noCr x.length x (Nat.le_refl _) hbyte hA 0
  · rcases detectCrlf_crlfOnly x.length x (Nat.le_refl _) hB with hT | hA2
    · rw [hT]
      exact decenc_crlf x.length x (Nat.le_refl _) hbyte hB 0
    · rw [detectCrlf_noCr x.length x (Nat.le_refl _) hA2]
      exact decenc_noCr x.length x (Nat.le_refl _) hbyte hA2 0

set_option maxRecDepth 40000 in
/-- Witness for the amended C7 at a concrete CRLF-terminated body. -/
theorem c7_witness :
    ((∀ c ∈ "line1\r\nline2\r\n".data, c.toNat < 256) ∧
      crlfOnly "line1\r\nline2\r\n".data = true) ∧
    decQP (encQP "line1\r\nline2\r\n".data) = "line1\r\nline2\r\n".data :=
  ⟨⟨by decide, by decide⟩,
    c7_roundtrip_amended _ (by decide) (Or.inr (by decide))⟩

end MhtmlFix
